import Mathlib

set_option autoImplicit false

/-!
Verification development for the spectra_lexer core: the rule compilers
(`spectra_lexer/steno/rules.py` and `spectra_lexer/rules/parser.py`), the
lexer rule matcher (`spectra_lexer/lexer/match.py`) and, where the code is
not part of the examined source tree (the key-sequence type `keys.py`, the
prefix tree `lexer/prefix.py`, small string utilities and the lexer
analyzer), models written from the specification.

Python strings are embedded as `List Char`; Python dicts whose claims need
them are embedded as association lists where insertion conses a binding in
front (lookup returns the most recent binding, matching dict update).
Python exceptions are embedded as an error type threaded through `Except`;
unbounded recursion and unbounded `while` loops are embedded with explicit
fuel parameters, whose exhaustion maps to `RecursionError` (for call-stack
recursion) and to a dedicated `loopLimit` marker (for `while` loops that
the Python code would never exit).
-/

/-- Python strings are modelled as lists of characters. -/
abbrev Str := List Char

/-- Lookup in an association list with `Str` keys; the first (most recent)
binding wins, as in a Python dict updated by consing bindings in front. -/
def assocFind {α : Type} : List (Str × α) → Str → Option α
  | [], _ => none
  | (k', v) :: rest, k => if k' = k then some v else assocFind rest k

/-- Python `list.index(c)`: index of the first occurrence of `c`, or the
full length when `c` is absent (the caller guards against absence). -/
def idxOfC (c : Char) : Str → Nat
  | [] => 0
  | d :: rest => if d = c then 0 else idxOfC c rest + 1

/-- Python slice `p[a:b]` (clamping, empty when `a ≥ b`). -/
def sliceL (p : Str) (a b : Nat) : Str := (p.take b).drop a

/-- Python slice assignment `p[s:e] = xs` for `s ≤ len p`: when `e < s` the
assignment inserts at `s`, so the tail resumes at `max s e`. -/
def spliceL (p : Str) (s e : Nat) (xs : Str) : Str :=
  p.take s ++ xs ++ p.drop (max s e)

/-- Python `ref.split(alias_delim, 1)` followed by `*alias, k = ...`:
returns the optional alias text before the first `'|'` and the remainder. -/
def splitBar : Str → Option Str × Str
  | [] => (none, [])
  | c :: rest =>
    if c = '|' then (some [], rest)
    else
      match splitBar rest with
      | (none, k) => (none, c :: k)
      | (some a, k) => (some (c :: a), k)

/-- Python `needle in hay` for strings: contiguous-substring test. -/
def containsSub : Str → Str → Bool
  | hay, needle =>
    if needle.isPrefixOf hay then true
    else
      match hay with
      | [] => false
      | _ :: rest => containsSub rest needle

/-- Python `s.split(c)` on a single-character separator. -/
def splitOnC (c : Char) : Str → List Str
  | [] => [[]]
  | d :: rest =>
    if d = c then [] :: splitOnC c rest
    else
      match splitOnC c rest with
      | [] => [[d]]
      | piece :: more => (d :: piece) :: more

/-! ## Embedding of `spectra_lexer/steno/rules.py` (class `RuleParser`) -/

/-- Model of the Python exceptions the steno rule compilers raise. `circular`
and `recursionLimit` are both of Python class `RecursionError`; `loopLimit`
stands for a `while` loop the Python code would never exit (no Python
exception corresponds to it, and it is never caught). -/
inductive PyErr where
  | valueError (msg : Str)
  | keyError (msg : Str)
  | recursionLimit
  | circular (msg : Str)
  | loopLimit
deriving DecidableEq

/-- A raw rule definition, the normalized four fields unpacked by
`RuleParser._parse` (`keys, pattern, *optional`). The field-count
`ValueError` paths for malformed JSON arrays are not modelled; no claim
examined here depends on them. -/
structure RawRule where
  keys : Str
  pattern : Str
  flags : List Str
  desc : Str
deriving DecidableEq

/-- `RuleMapItem` from `steno/rules.py`: child rule name with the start
index and span length on the parent's letters. -/
structure RuleMapItem where
  name : Str
  start : Nat
  length : Nat
deriving DecidableEq

/-- `StenoRule` from `steno/rules.py`. -/
structure StenoRule where
  name : Str
  keys : Str
  letters : Str
  flags : List Str
  desc : Str
  rulemap : List RuleMapItem
deriving DecidableEq

/-- The parser's `_rules` dict of finished rules. -/
abbrev Store := List (Str × StenoRule)

/-- The two `except` clauses of `RuleParser._parse`: a `ValueError` escaping
`_substitute` is re-raised as "Unmatched brackets in rule k", and any
`RecursionError` (including an already-wrapped circular-reference error,
which is itself a `RecursionError`) is re-raised as "Circular reference
descended from rule k". `KeyError` and loop divergence pass through. -/
def wrapErr (k : Str) : PyErr → PyErr
  | .valueError _ => .valueError ("Unmatched brackets in rule ".toList ++ k)
  | .recursionLimit => .circular ("Circular reference descended from rule ".toList ++ k)
  | .circular _ => .circular ("Circular reference descended from rule ".toList ++ k)
  | .keyError m => .keyError m
  | .loopLimit => .loopLimit

/-- The `while lb in p_list` loop of `RuleParser._substitute`, abstracted
over the resolver `getf` (which stands for `self.get`, closing over the
parser's state). `pattern0` is the original pattern (used verbatim in the
`KeyError` message); `p` is the mutable `p_list`; `sf` is fuel for the
`while` loop. Each iteration finds the first left and right brackets,
extracts the reference (splitting off an alias on `'|'`), resolves it via
`getf`, records a rulemap entry at the bracket position with the
substituted letters' length, and splices those letters into `p`. -/
def RuleParser.substLoop (getf : Str → Store → Except PyErr (Option StenoRule) × Store)
    (pattern0 : Str) : Nat → Str → List RuleMapItem → Store →
    Except PyErr (Str × List RuleMapItem) × Store
  | sf, p, rmap, st =>
    if '(' ∈ p then
      match sf with
      | 0 => (.error .loopLimit, st)
      | sf' + 1 =>
        if ')' ∈ p then
          let start := idxOfC '(' p
          let e := idxOfC ')' p + 1
          let ref := sliceL p (start + 1) (e - 1)
          match getf (splitBar ref).2 st with
          | (.error er, st') => (.error er, st')
          | (.ok none, st') =>
            (.error (.keyError ("Illegal rule reference ".toList ++ (splitBar ref).2 ++
              " in pattern ".toList ++ pattern0)), st')
          | (.ok (some rule), st') =>
            let letters :=
              match (splitBar ref).1 with
              | some a => a
              | none => rule.letters
            RuleParser.substLoop getf pattern0 sf' (spliceL p start e letters)
              (rmap ++ [⟨(splitBar ref).2, start, letters.length⟩]) st'
        else (.error (.valueError "is not in list".toList), st)
    else (.ok (p, rmap), st)

/-- The body of `RuleParser.get`, abstracted over the recursive `_parse`
(`parsef`): return a finished rule from the store, parse a raw one, or
return `none` when the name is unknown. -/
def RuleParser.getAux (raw : List (Str × RawRule))
    (parsef : Str → Store → Except PyErr StenoRule × Store) (k : Str) (st : Store) :
    Except PyErr (Option StenoRule) × Store :=
  match assocFind st k with
  | some r => (.ok (some r), st)
  | none =>
    match assocFind raw k with
    | none => (.ok none, st)
    | some _ =>
      match parsef k st with
      | (.ok r, st') => (.ok (some r), st')
      | (.error e, st') => (.error e, st')

/-- `RuleParser._parse`: look up the raw definition, substitute the pattern
into letters and a rulemap, build the finished rule and store it. `pf` is
call-stack fuel (Python's recursion limit) consumed once per `_parse`
frame; `sf` is fuel for each substitution `while` loop. The resolver
passed to the loop is `self.get` one recursion level down. -/
def RuleParser.parse (raw : List (Str × RawRule)) : Nat → Str → Store → Nat →
    Except PyErr StenoRule × Store
  | 0, _, st, _ => (.error .recursionLimit, st)
  | pf' + 1, k, st, sf =>
    match assocFind raw k with
    | none => (.error (.keyError k), st)
    | some rr =>
      match RuleParser.substLoop
          (RuleParser.getAux raw (fun k' st' => RuleParser.parse raw pf' k' st' sf))
          rr.pattern sf rr.pattern [] st with
      | (.error e, st') => (.error (wrapErr k e), st')
      | (.ok (letters, rmap), st') =>
        let rule : StenoRule := ⟨k, rr.keys, letters, rr.flags, rr.desc, rmap⟩
        (.ok rule, (k, rule) :: st')

/-- `RuleParser.get`: return a finished rule from the store, parse a raw one,
or return `none` when the name is unknown. -/
def RuleParser.get (raw : List (Str × RawRule)) (k : Str) (st : Store) (pf sf : Nat) :
    Except PyErr (Option StenoRule) × Store :=
  RuleParser.getAux raw (fun k' st' => RuleParser.parse raw pf k' st' sf) k st

/-! ## Embedding of `spectra_lexer/rules/rules.py` and `spectra_lexer/rules/parser.py` -/

/-- `StenoRule` from `rules/rules.py`: a named tuple with a rulemap of
`(rule, start, length)` entries referencing child rules directly. The
`keys` field holds the raw keys text: `StenoKeys.parse` lives in `keys.py`,
which is not part of the examined source, and no claim about this compiler
depends on key parsing. -/
inductive RuleR where
  | mk (name : Str) (keys : Str) (letters : Str) (flags : List Str) (desc : Str)
      (rulemap : List (RuleR × Nat × Nat))

def RuleR.name : RuleR → Str
  | .mk n _ _ _ _ _ => n

def RuleR.keys : RuleR → Str
  | .mk _ k _ _ _ _ => k

def RuleR.letters : RuleR → Str
  | .mk _ _ l _ _ _ => l

def RuleR.flags : RuleR → List Str
  | .mk _ _ _ f _ _ => f

def RuleR.desc : RuleR → Str
  | .mk _ _ _ _ d _ => d

def RuleR.rulemap : RuleR → List (RuleR × Nat × Nat)
  | .mk _ _ _ _ _ m => m

/-- `KEY_FLAGS` from `rules/rules.py`: the fixed key-purpose flags with
their descriptions. -/
def KEY_FLAGS : List (Str × Str) :=
  [("*:??".toList, "purpose unknown\nPossibly resolves a conflict".toList),
   ("*:CF".toList, "resolves conflict between words".toList),
   ("*:PR".toList, "indicates a proper noun\n(names, places, etc.)".toList),
   ("*:AB".toList, "indicates an abbreviation".toList),
   ("*:PS".toList, "indicates a prefix or suffix stroke".toList),
   ("*:OB".toList,
    "indicates an obscenity\n(and make it harder to be the result of a misstroke)".toList),
   ("*:FS".toList, "indicates fingerspelling".toList),
   ("p:FS".toList, "use to capitalize fingerspelled letters".toList),
   ("#:NM".toList, "use to shift to number mode".toList),
   ("EU:NM".toList, "use to invert the order of two digits".toList),
   ("d:NM".toList, "use to double a digit".toList)]

/-- The key-purpose flag names (`KEY_FLAG_SET`), in declaration order. -/
def keyFlagList : List Str := KEY_FLAGS.map Prod.fst

/-- `_KEY_RULES[f]` from `rules/rules.py`: the preconstructed singleton rule
for key flag `f`: name `f`, keys `f.split(":", 1)[0]`, empty letters, flags
`("KEY",)`, the flag's description, empty rulemap. -/
def keyRuleFor (f : Str) : RuleR :=
  .mk f (f.takeWhile (fun c => ¬ c = ':')) [] ["KEY".toList]
    ((assocFind KEY_FLAGS f).getD []) []

/-- `RuleMap.add_key_rules(flags, start, remove_flags=True)`: for each flag
in `KEY_FLAG_SET.intersection(flags)` append a zero-length entry for its key
rule at `start` and remove one occurrence of the flag from `flags`. Python
iterates a set, whose order is unspecified; it is modelled in `KEY_FLAGS`
declaration order (no claim depends on the order among distinct key flags). -/
def addKeyRules (flags : List Str) (start : Nat) :
    List (RuleR × Nat × Nat) × List Str :=
  (keyFlagList.filter (fun f => f ∈ flags)).foldl
    (fun (acc : List (RuleR × Nat × Nat) × List Str) f =>
      (acc.1 ++ [(keyRuleFor f, start, 0)], acc.2.erase f))
    ([], flags)

/-- Left-bracket class of `SUBRULE_RX` (`LEFT_BRACKETS`). -/
def isLB (c : Char) : Bool := c = '(' || c = '['

/-- Right-bracket class of `SUBRULE_RX` (`RIGHT_BRACKETS`). -/
def isRB (c : Char) : Bool := c = ')' || c = ']'

/-- Any bracket-class character. -/
def isBr (c : Char) : Bool := isLB c || isRB c

/-- Index and value of the first bracket-class character, if any. -/
def firstBr : Str → Option (Nat × Char)
  | [] => none
  | c :: rest =>
    if isBr c then some (0, c)
    else (firstBr rest).map (fun q => (q.1 + 1, q.2))

/-- The leftmost match of `SUBRULE_RX` (`[LB][^LB RB]*?[RB]`): the first
position holding a left bracket whose next bracket-class character is a
right bracket; returns (start, end-exclusive). The lazy quantifier takes
the shortest closing bracket, and cannot cross another bracket. -/
def findSub : Str → Option (Nat × Nat)
  | [] => none
  | c :: rest =>
    if isLB c then
      match firstBr rest with
      | some (j, b) =>
        if isRB b then some (0, j + 2)
        else (findSub rest).map (fun q => (q.1 + 1, q.2 + 1))
      | none => none
    else (findSub rest).map (fun q => (q.1 + 1, q.2 + 1))

/-- Auxiliary scanner for `replaceAll`, fuelled by the scanned string's
length (each step consumes at least one character when `t` is nonempty). -/
def replaceAllG : Nat → Str → Str → Str → Str
  | 0, s, _, _ => s
  | fuel + 1, s, t, r =>
    if t.isPrefixOf s ∧ t ≠ [] then
      r ++ replaceAllG fuel (s.drop t.length) t r
    else
      match s with
      | [] => []
      | c :: rest => c :: replaceAllG fuel rest t r

/-- Python `s.replace(t, r)`: replace all non-overlapping occurrences of `t`
in `s`, left to right (only called with nonempty `t`). -/
def replaceAll (s t r : Str) : Str := replaceAllG s.length s t r

/-- The raw rule shape consumed by `StenoRuleParser._parse`: exactly four
fields `keys, pattern, flag_str, description`. -/
structure RawRuleR where
  keys : Str
  pattern : Str
  flagStr : Str
  desc : Str
deriving DecidableEq

/-- The parser's own dict of finished rules (the class subclasses `dict`). -/
abbrev StoreR := List (Str × RuleR)

/-- The `while m:` loop of `StenoRuleParser._substitute`, abstracted over
the recursive parser `parsef` (which stands for `self._parse`, closing over
the parser's state) and fuelled by `sf`: find the leftmost `SUBRULE_RX`
match, extract alias letters and rule key (`()` spans carry the key alone;
other spans must split on `'|'` or the tuple unpacking raises
`ValueError`), parse the child if it is not finished yet (failing with
`KeyError` when it is absent from both the results dict and the source
dict), record a rulemap entry at `m.start()`, and replace every occurrence
of the matched text by the letters (Python `str.replace` replaces all
occurrences). An empty alias is falsy, so the child's letters are
substituted in its place. -/
def StenoRuleParser.subst (raw : List (Str × RawRuleR))
    (parsef : Str → StoreR → Except PyErr RuleR × StoreR) :
    Nat → Str → List (RuleR × Nat × Nat) → StoreR →
    Except PyErr (Str × List (RuleR × Nat × Nat)) × StoreR
  | sf, p, rmap, st =>
    match findSub p with
    | none => (.ok (p, rmap), st)
    | some (s, e) =>
      match sf with
      | 0 => (.error .loopLimit, st)
      | sf' + 1 =>
        let ruleStr := sliceL p s e
        let inner := sliceL p (s + 1) (e - 1)
        let lk : Except PyErr (Option Str × Str) :=
          if ruleStr.head? = some '(' then .ok (none, inner)
          else
            match splitBar inner with
            | (some a, kk) => .ok (some a, kk)
            | (none, _) => .error (.valueError "not enough values to unpack".toList)
        match lk with
        | .error er => (.error er, st)
        | .ok (letters?, key) =>
          let step : Except PyErr Unit × StoreR :=
            match assocFind st key with
            | some _ => (.ok (), st)
            | none =>
              match assocFind raw key with
              | none =>
                (.error (.keyError ("Illegal reference: ".toList ++ key ++
                  " in ".toList ++ p)), st)
              | some _ =>
                match parsef key st with
                | (.ok _, st') => (.ok (), st')
                | (.error er, st') => (.error er, st')
          match step with
          | (.error er, st') => (.error er, st')
          | (.ok _, st') =>
            match assocFind st' key with
            | none => (.error (.keyError key), st')
            | some rule =>
              let letters :=
                match letters? with
                | some a => if a = [] then rule.letters else a
                | none => rule.letters
              StenoRuleParser.subst raw parsef sf' (replaceAll p ruleStr letters)
                (rmap ++ [(rule, s, letters.length)]) st'

/-- `StenoRuleParser._parse`: substitute the pattern, then, when a flag
string is present, split it on `'|'`, append trailing key rules for the key
flags at offset `len(letters)` and remove those flags; store the rule.
`pf` is call-stack fuel, consumed once per `_parse` frame; `sf` is fuel for
each substitution `while` loop. -/
def StenoRuleParser.parse (raw : List (Str × RawRuleR)) : Nat → Str → StoreR → Nat →
    Except PyErr RuleR × StoreR
  | 0, _, st, _ => (.error .recursionLimit, st)
  | pf' + 1, k, st, sf =>
    match assocFind raw k with
    | none => (.error (.keyError k), st)
    | some rr =>
      match StenoRuleParser.subst raw
          (fun k' st' => StenoRuleParser.parse raw pf' k' st' sf)
          sf rr.pattern [] st with
      | (.error e, st') => (.error e, st')
      | (.ok (letters, rmap), st') =>
        let rule : RuleR :=
          if rr.flagStr = [] then .mk k rr.keys letters [] rr.desc rmap
          else
            let fl := splitOnC '|' rr.flagStr
            let kr := addKeyRules fl letters.length
            .mk k rr.keys letters kr.2 rr.desc (rmap ++ kr.1)
        (.ok rule, (k, rule) :: st')

/-! ## Embedding of `spectra_lexer/lexer/match.py` (class `LexerRuleMatcher`) -/

/-- Modelled from the spec: the stroke-separator token of the key alphabet
(`KEY_SEP` from `keys.py`, which is not part of the examined source). -/
def KEY_SEP : Char := '/'

/-- `KEY_STAR` from `lexer/match.py`: the designated unordered key. -/
def KEY_STAR : Char := '*'

/-- Modelled from the spec: `StenoKeys.first_stroke()` — keys up to and
including the first separator, or the whole sequence if none (§4.1;
`keys.py` is not part of the examined source). -/
def firstStroke (ks : Str) : Str :=
  match ks with
  | [] => []
  | c :: rest => if c = KEY_SEP then [c] else c :: firstStroke rest

/-- Modelled from the spec: `StenoKeys.startswith` — the prefix test of
§4.1 (`keys.py` is not part of the examined source). -/
def keysStartWith (ks pre : Str) : Bool := pre.isPrefixOf ks

/-- Python `str.lstrip()` (whitespace modelled as the space character). -/
def lstripL (s : Str) : Str := s.dropWhile (fun c => c = ' ')

/-- Modelled from the spec: `str_prefix` from `utils.py` (not part of the
examined source) — the next whitespace-delimited token (§4.3). -/
def strPfx (s : Str) : Str := s.takeWhile (fun c => ¬ c = ' ')

/-- The rule data the matcher consults: keys, letters and flags (the fields
of `StenoRule` from `rules.py` that `lexer/match.py` reads; `desc` and the
rulemap play no part in matching and are omitted). -/
structure LexRule where
  keys : Str
  letters : Str
  flags : List Str
deriving DecidableEq

/-- Modelled from the spec: one entry of `OrderedKeyPrefixTree`
(`lexer/prefix.py` is not part of the examined source): the keys and
letters under which a rule was filed (§4.3). -/
structure PTEntry where
  keys : Str
  letters : Str
  rule : LexRule
deriving DecidableEq

/-- Modelled from the spec: the ordering key of the prefix structure — the
key sequence with the designated unordered key excluded (§4.3). -/
def ordKey (ks : Str) : Str := ks.filter (fun c => ¬ c = KEY_STAR)

/-- Modelled from the spec: `OrderedKeyPrefixTree.prefix_match` — every
entry whose ordered key sequence is a prefix of the remaining keys and
whose letters are a prefix of the remaining letters (§4.3). -/
def ptMatch (entries : List PTEntry) (ks ls : Str) : List LexRule :=
  (entries.filter
    (fun en => (ordKey en.keys).isPrefixOf (ordKey ks) && en.letters.isPrefixOf ls)).map
    PTEntry.rule

/-- `LexerRuleMatcher`: the four lookup structures built by `__init__`
(dicts are modelled as association lists consed in front; lookup takes the
most recent binding, as a dict does). -/
structure LexerRuleMatcher where
  specialD : List (Str × LexRule)
  strokeD : List (Str × LexRule)
  wordD : List (Str × LexRule)
  ptre : List PTEntry
deriving DecidableEq

/-- The loop body of `LexerRuleMatcher.__init__`: file one named rule into
the structure chosen by flag priority — `SPEC` by name, else `STRK` by full
keys, else `WORD` by letters, else the prefix structure. -/
def LexerRuleMatcher.initStep (m : LexerRuleMatcher) (nr : Str × LexRule) :
    LexerRuleMatcher :=
  if "SPEC".toList ∈ nr.2.flags then
    { m with specialD := (nr.1, nr.2) :: m.specialD }
  else if "STRK".toList ∈ nr.2.flags then
    { m with strokeD := (nr.2.keys, nr.2) :: m.strokeD }
  else if "WORD".toList ∈ nr.2.flags then
    { m with wordD := (nr.2.letters, nr.2) :: m.wordD }
  else
    { m with ptre := ⟨nr.2.keys, nr.2.letters, nr.2⟩ :: m.ptre }

/-- `LexerRuleMatcher.__init__`: start from empty structures and file every
rule of the finished-rules dict. -/
def LexerRuleMatcher.init (rules : List (Str × LexRule)) : LexerRuleMatcher :=
  rules.foldl LexerRuleMatcher.initStep ⟨[], [], [], []⟩

/-- `LexerRuleMatcher._stroke_match`: the rule found under the next full
stroke, included only when its letters occur as a substring of the given
letters. -/
def LexerRuleMatcher.strokeMatch (m : LexerRuleMatcher) (ks ls : Str) : List LexRule :=
  match assocFind m.strokeD (firstStroke ks) with
  | some r => if containsSub ls r.letters then [r] else []
  | none => []

/-- `LexerRuleMatcher._word_match`: the rule found under the next full word,
included only when its keys are a prefix of the given keys. -/
def LexerRuleMatcher.wordMatch (m : LexerRuleMatcher) (ks ls : Str) : List LexRule :=
  match assocFind m.wordD (strPfx (lstripL ls)) with
  | some r => if keysStartWith ks r.keys then [r] else []
  | none => []

/-- `LexerRuleMatcher.match` (named `matchRules` here, `match` being a Lean
keyword): prefix-structure matches, then — on a full stroke — the stroke
match, then — on a full word — the word match. -/
def LexerRuleMatcher.matchRules (m : LexerRuleMatcher) (ks ls : Str)
    (isFullStroke isFullWord : Bool) : List LexRule :=
  ptMatch m.ptre ks ls ++
    (if isFullStroke then m.strokeMatch ks ls else []) ++
    (if isFullWord then m.wordMatch ks ls else [])

/-- `LexerRuleMatcher.special_match`: direct name lookup. -/
def LexerRuleMatcher.specialMatch (m : LexerRuleMatcher) (n : Str) : Option LexRule :=
  assocFind m.specialD n

/-! ## Model of the Lexer Analyzer (spec §4.4; its source is not part of the
examined tree, only the matcher and scoring helpers it drives) -/

/-- Modelled from the spec: one entry of an analysis result — either a
matched child rule with the keys it accounts for, or the synthetic entry
explicitly flagged as unmatched wrapping leftover keys (§4.4, §7). -/
inductive LexEntry where
  | matched (rule : LexRule) (keySpan : Str)
  | unmatched (keySpan : Str)
deriving DecidableEq

/-- The keys an analysis entry accounts for. -/
def LexEntry.keySpan : LexEntry → Str
  | .matched _ sp => sp
  | .unmatched sp => sp

/-- Whether an analysis entry is the explicitly-flagged unmatched span. -/
def LexEntry.isUnmatched : LexEntry → Bool
  | .matched _ _ => false
  | .unmatched _ => true

/-- A search branch: the matched entries accumulated so far (each rule with
the keys it consumed) and the key/letter windows still remaining. -/
structure Branch where
  entries : List (LexRule × Str)
  ksRem : Str
  lsRem : Str
deriving DecidableEq

/-- Modelled from the spec: the number of RARE-flagged rules a branch used
(§4.4 tie-break (3)). -/
def rareCountB (b : Branch) : Nat :=
  (b.entries.filter (fun en => "RARE".toList ∈ en.1.flags)).length

/-- Modelled from the spec: the branch-quality order of §4.4 — maximum keys
matched (fewest keys remaining), then maximum letters matched, then fewest
RARE rules. `betterBranch a b` holds when `a` strictly beats `b`; ties are
settled first-wins by `pickBest`. -/
def betterBranch (a b : Branch) : Bool :=
  Nat.blt a.ksRem.length b.ksRem.length ||
    (Nat.beq a.ksRem.length b.ksRem.length &&
      (Nat.blt a.lsRem.length b.lsRem.length ||
        (Nat.beq a.lsRem.length b.lsRem.length &&
          Nat.blt (rareCountB a) (rareCountB b))))

/-- Modelled from the spec: first-wins selection of the best branch (§4.4
tie-break (4)). -/
def pickBest (first : Branch) (rest : List Branch) : Branch :=
  rest.foldl (fun best x => if betterBranch x best then x else best) first

/-- A branch that consumed the whole input (§4.4 success condition). -/
def fullBranch (b : Branch) : Bool := b.ksRem.isEmpty && b.lsRem.isEmpty

/-- Modelled from the spec: the key offset aligns with a stroke start — at
the input start or right after a separator key (§4.4). `last` is the most
recently consumed key. -/
def atStrokeB (last : Option Char) : Bool :=
  match last with
  | none => true
  | some c => c = KEY_SEP

/-- Modelled from the spec: the letter offset aligns with a word start
(§4.4). `last` is the most recently consumed letter. -/
def atWordB (last : Option Char) : Bool :=
  match last with
  | none => true
  | some c => c = ' '

/-- The last of the `n` consumed elements, or the previous last element when
nothing was consumed. -/
def lastConsumed (xs : Str) (n : Nat) (prev : Option Char) : Option Char :=
  match (xs.take n).getLast? with
  | some c => some c
  | none => prev

/-- Modelled from the spec: the recursive backtracking search of §4.4. At
each window it queries the matcher with the two boundary booleans, explores
every non-RARE candidate, and admits RARE candidates only when no non-RARE
branch reaches full coverage; among the collected branches (including the
branch that matches nothing further) the best is kept, first-wins on ties.
The search is fuel-bounded (§5): on exhaustion it falls back to the best
branch found so far. -/
def lexSearch (m : LexerRuleMatcher) : Nat → Str → Str → Option Char → Option Char → Branch
  | 0, ks, ls, _, _ => ⟨[], ks, ls⟩
  | fuel + 1, ks, ls, lk, ll =>
    let cands := m.matchRules ks ls (atStrokeB lk) (atWordB ll)
    let tryRule := fun (r : LexRule) =>
      let n := r.keys.length
      let ln := r.letters.length
      let sub := lexSearch m fuel (ks.drop n) (ls.drop ln)
        (lastConsumed ks n lk) (lastConsumed ls ln ll)
      Branch.mk ((r, ks.take n) :: sub.entries) sub.ksRem sub.lsRem
    let normal := (cands.filter (fun r => ¬ "RARE".toList ∈ r.flags)).map tryRule
    let rare := (cands.filter (fun r => "RARE".toList ∈ r.flags)).map tryRule
    let base : Branch := ⟨[], ks, ls⟩
    if normal.any fullBranch then pickBest base normal
    else pickBest base (normal ++ rare)

/-- Modelled from the spec: `analyze(keys, letters)` — run the bounded
search from the input start; when the best branch leaves anything
uncovered, wrap the leftover keys into a synthetic entry explicitly flagged
as unmatched, so the result always covers the full input (§4.4, §7). -/
def analyze (m : LexerRuleMatcher) (fuel : Nat) (ks ls : Str) : List LexEntry :=
  let b := lexSearch m fuel ks ls none none
  let ments := b.entries.map (fun en => LexEntry.matched en.1 en.2)
  if b.ksRem.isEmpty && b.lsRem.isEmpty then ments
  else ments ++ [LexEntry.unmatched b.ksRem]

/-! ## Model of the Key Sequence type (spec §4.1; `keys.py` is not part of
the examined source) -/

/-- Modelled from the spec: the fixed steno alphabet, including the stroke
separator and the unordered asterisk key (§3; the concrete token set is the
RTFCRE character set the repository's tests use). -/
def STENO_CHARS : Str := "/-#STKPWHRAO*EUFRPBLGTSDZ".toList

/-- Modelled from the spec: the error `parse` raises on an unrecognized
token (§4.1). -/
structure FormatError where
  token : Char
deriving DecidableEq

/-- Modelled from the spec: a key sequence as produced by `parse` (§3). -/
structure StenoKeys where
  tokens : Str
deriving DecidableEq

/-- Modelled from the spec: `parse(text)` — accept a text all of whose
tokens are drawn from the steno alphabet; fail with a `FormatError`
identifying the first unrecognized token otherwise (§4.1). -/
def StenoKeys.parse (s : Str) : Except FormatError StenoKeys :=
  match s.find? (fun c => !(STENO_CHARS.contains c)) with
  | some c => .error ⟨c⟩
  | none => .ok ⟨s⟩

/-- Modelled from the spec: `to_text()` — serialize back to the compact
string notation (§4.1). -/
def StenoKeys.toText (k : StenoKeys) : Str := k.tokens

/-- A well-formed key-sequence text: every token is drawn from the steno
alphabet. -/
def wellFormedKeyText (s : Str) : Bool := s.all (fun c => STENO_CHARS.contains c)

/-! ## Further definitions used by the statements -/

deriving instance DecidableEq for Except

/-- A rule value appears in the matcher's name-indexed `SPEC` structure. -/
def filedSpecial (m : LexerRuleMatcher) (r : LexRule) : Prop :=
  ∃ n, (n, r) ∈ m.specialD

/-- A rule value appears in the matcher's stroke-keyed structure. -/
def filedStroke (m : LexerRuleMatcher) (r : LexRule) : Prop :=
  ∃ kk, (kk, r) ∈ m.strokeD

/-- A rule value appears in the matcher's word-keyed structure. -/
def filedWord (m : LexerRuleMatcher) (r : LexRule) : Prop :=
  ∃ kk, (kk, r) ∈ m.wordD

/-- A rule value appears in the matcher's prefix structure. -/
def filedTree (m : LexerRuleMatcher) (r : LexRule) : Prop :=
  ∃ en, en ∈ m.ptre ∧ en.rule = r

/-- The key spans of an analysis result, in order. -/
def keySpans (es : List LexEntry) : Str := (es.map LexEntry.keySpan).flatten

/-- A named rule the `__init__` if-chain files as `SPEC`. -/
def catSpec (nr : Str × LexRule) : Bool := decide ("SPEC".toList ∈ nr.2.flags)

/-- A named rule the `__init__` if-chain files as `STRK`. -/
def catStrk (nr : Str × LexRule) : Bool :=
  !catSpec nr && decide ("STRK".toList ∈ nr.2.flags)

/-- A named rule the `__init__` if-chain files as `WORD`. -/
def catWord (nr : Str × LexRule) : Bool :=
  !catSpec nr && !decide ("STRK".toList ∈ nr.2.flags) &&
    decide ("WORD".toList ∈ nr.2.flags)

/-- A named rule the `__init__` if-chain files into the prefix structure. -/
def catTree (nr : Str × LexRule) : Bool :=
  !catSpec nr && !decide ("STRK".toList ∈ nr.2.flags) &&
    !decide ("WORD".toList ∈ nr.2.flags)

/-- The bracket characters of a steno-parser pattern, in order. -/
def brackets (p : Str) : Str := p.filter (fun c => c = '(' || c = ')')

/-- A bracket string of shape `( ) ( ) ... ( )`: complete, non-nested,
alternating pairs. -/
def altBr : Str → Bool
  | [] => true
  | c :: rest =>
    if c = '(' then
      match rest with
      | [] => false
      | d :: rest' => if d = ')' then altBr rest' else false
    else false

/-- A pattern whose bracket characters form complete, non-nested,
alternating pairs. -/
def wellBracketed (p : Str) : Bool := altBr (brackets p)

/-- The finished rule `RuleParser._parse` builds for a raw rule whose pattern
contains no reference span: the letters are the pattern itself and the
rulemap is empty. -/
def leafRule (n : Str) (lr : RawRule) : StenoRule :=
  ⟨n, lr.keys, lr.pattern, lr.flags, lr.desc, []⟩

/-- A reference name that `RuleParser.get` resolves against the store `st0`
and the raw definitions without further substitution work: either a finished
rule with bracket-free letters is stored for it, or it is a raw rule whose
pattern contains no bracket (a leaf, parsed on demand). -/
def resolvable (raw : List (Str × RawRule)) (st0 : Store) (n : Str) : Prop :=
  (∃ rule, assocFind st0 n = some rule ∧
    ¬ '(' ∈ rule.letters ∧ ¬ ')' ∈ rule.letters) ∨
  (assocFind st0 n = none ∧
    ∃ lr, assocFind raw n = some lr ∧ ¬ '(' ∈ lr.pattern ∧ ¬ ')' ∈ lr.pattern)

/-- Shape of the bindings `RuleParser._parse` adds in front of the initial
store while resolving references on the way to a failure: each is a finished
leaf rule for a name that is raw but was not previously resolved. -/
def extInv (raw : List (Str × RawRule)) (st0 : Store) (ext : Store) : Prop :=
  ∀ e ∈ ext, assocFind st0 e.1 = none ∧
    ∃ lr, assocFind raw e.1 = some lr ∧ ¬ '(' ∈ lr.pattern ∧ ¬ ')' ∈ lr.pattern ∧
      e.2 = leafRule e.1 lr

/-! ## Concrete inputs used by the claim theorems -/

/-- The two-rule cyclic set `{A: references B, B: references A}`. -/
def rawCycAB : List (Str × RawRule) :=
  [("A".toList, ⟨"KA".toList, "(B)".toList, [], []⟩),
   ("B".toList, ⟨"KB".toList, "(A)".toList, [], []⟩)]

/-- A rule whose pattern references the undefined name `Z`. -/
def rawNoRef : List (Str × RawRule) :=
  [("foo".toList, ⟨"K".toList, "(Z)".toList, [], []⟩)]

/-- A rule whose pattern resolves the raw rule `x` before hitting the
undefined name `Z`. -/
def rawMulti : List (Str × RawRule) :=
  [("foo".toList, ⟨"K".toList, "(x)(Z)".toList, [], []⟩),
   ("x".toList, ⟨"X".toList, "xl".toList, [], []⟩)]

/-- The spec's concrete scenario: `un-`, `do`, and `undo = (un-)(do)`. -/
def rawUndo : List (Str × RawRule) :=
  [("un-".toList, ⟨"UN".toList, "un".toList, [], []⟩),
   ("do".toList, ⟨"DO".toList, "do".toList, [], []⟩),
   ("undo".toList, ⟨"UN/DO".toList, "(un-)(do)".toList, [], []⟩)]

/-- A rule set whose `par` pattern uses an alias that itself contains a left
bracket: resolving `par` succeeds with letters `""` yet records the entry
`(e, 0, 1)`. -/
def rawAliasLB : List (Str × RawRule) :=
  [("e".toList, ⟨[], [], [], []⟩),
   ("x".toList, ⟨[], [], [], []⟩),
   ("par".toList, ⟨[], "((|e)x)".toList, [], []⟩)]

/-- A rule set for `StenoRuleParser` whose `par` pattern substitutes the
aliased `[e|x]` span (recorded at offset 1) before the `(ey)` span (recorded
at offset 0): the resulting rulemap is out of order and out of range. -/
def rawSwap : List (Str × RawRuleR) :=
  [("par".toList, ⟨"P".toList, "([e|x]y)".toList, [], []⟩),
   ("x".toList, ⟨"X".toList, "xl".toList, [], []⟩),
   ("ey".toList, ⟨"E".toList, "q".toList, [], []⟩)]

/-- A raw definition carrying the key flag `*:??` twice. -/
def rawDupFlag : List (Str × RawRuleR) :=
  [("k".toList, ⟨"K*".toList, "a".toList, "*:??|*:??".toList, []⟩)]

/-- A raw definition carrying one ordinary flag and one key flag. -/
def rawOneFlag : List (Str × RawRuleR) :=
  [("k".toList, ⟨"K*".toList, "ab".toList, "STRK|*:AB".toList, []⟩)]

/-- A stroke-exact rule used by the matcher witnesses. -/
def wrStrk : LexRule := ⟨"KAT".toList, "at".toList, ["STRK".toList]⟩

/-- A prefix rule used by the matcher witnesses. -/
def wrPfx : LexRule := ⟨"K".toList, "c".toList, []⟩

/-- A word rule used by the matcher witnesses. -/
def wrWord : LexRule := ⟨"KAT".toList, "cat".toList, ["WORD".toList]⟩

/-- The rules dict used by the matcher witnesses. -/
def wRules : List (Str × LexRule) :=
  [("pw".toList, wrPfx), ("sw".toList, wrStrk), ("ww".toList, wrWord)]

/-! ## Helper lemmas -/

theorem foldl_best_mem (l : List Branch) (b : Branch) :
    l.foldl (fun best x => if betterBranch x best then x else best) b ∈ b :: l := by
  induction l generalizing b with
  | nil => simp [List.foldl]
  | cons x t ih =>
    simp only [List.foldl_cons]
    by_cases hx : betterBranch x b = true
    · rw [if_pos hx]
      rcases List.mem_cons.mp (ih x) with h | h
      · rw [h]; simp
      · simp [h]
    · rw [if_neg hx]
      rcases List.mem_cons.mp (ih b) with h | h
      · rw [h]; simp
      · simp [h]

theorem pickBest_mem (first : Branch) (rest : List Branch) :
    pickBest first rest ∈ first :: rest := foldl_best_mem rest first

theorem lexSearch_spans (m : LexerRuleMatcher) :
    ∀ (fuel : Nat) (ks ls : Str) (lk ll : Option Char),
      ((lexSearch m fuel ks ls lk ll).entries.map Prod.snd).flatten ++
        (lexSearch m fuel ks ls lk ll).ksRem = ks := by
  intro fuel
  induction fuel with
  | zero => intro ks ls lk ll; simp [lexSearch]
  | succ f ih =>
    intro ks ls lk ll
    have hmem :
        ∀ (L : List LexRule) (b : Branch),
          b ∈ L.map (fun r =>
            Branch.mk ((r, ks.take r.keys.length) ::
                (lexSearch m f (ks.drop r.keys.length) (ls.drop r.letters.length)
                  (lastConsumed ks r.keys.length lk)
                  (lastConsumed ls r.letters.length ll)).entries)
              (lexSearch m f (ks.drop r.keys.length) (ls.drop r.letters.length)
                  (lastConsumed ks r.keys.length lk)
                  (lastConsumed ls r.letters.length ll)).ksRem
              (lexSearch m f (ks.drop r.keys.length) (ls.drop r.letters.length)
                  (lastConsumed ks r.keys.length lk)
                  (lastConsumed ls r.letters.length ll)).lsRem) →
          (b.entries.map Prod.snd).flatten ++ b.ksRem = ks := by
      intro L b hb
      rcases List.mem_map.mp hb with ⟨r, _, rfl⟩
      simp only [List.map_cons, List.flatten_cons, List.append_assoc]
      rw [ih]
      exact List.take_append_drop _ ks
    have hbase : ((Branch.mk [] ks ls).entries.map Prod.snd).flatten ++
        (Branch.mk [] ks ls).ksRem = ks := by simp
    show ((lexSearch m (f + 1) ks ls lk ll).entries.map Prod.snd).flatten ++
        (lexSearch m (f + 1) ks ls lk ll).ksRem = ks
    rw [lexSearch]
    split
    · rcases List.mem_cons.mp (pickBest_mem _ _) with h | h
      · rw [h]; exact hbase
      · exact hmem _ _ h
    · rcases List.mem_cons.mp (pickBest_mem _ _) with h | h
      · rw [h]; exact hbase
      · rcases List.mem_append.mp h with h' | h'
        · exact hmem _ _ h'
        · exact hmem _ _ h'

/-! ## Claim theorems -/

/-- Claim C1: for every (keys, letters) input, the Lexer Analyzer's
`analyze` operation is total (it returns a result, never an error) and the
key spans of its matched entries plus its explicitly-flagged unmatched
entries concatenate to exactly the full input keys — no key duplicated or
omitted, so total coverage always equals the full input length. -/
theorem c1_analyze_total_coverage (m : LexerRuleMatcher) (fuel : Nat) (ks ls : Str) :
    keySpans (analyze m fuel ks ls) = ks ∧
    (keySpans (analyze m fuel ks ls)).length = ks.length := by
  have h := lexSearch_spans m fuel ks ls none none
  have hmain : keySpans (analyze m fuel ks ls) = ks := by
    simp only [analyze, keySpans]
    split
    · next hfull =>
      have hks : (lexSearch m fuel ks ls none none).ksRem = [] := by
        have := (Bool.and_eq_true _ _).mp hfull
        exact List.isEmpty_iff.mp this.1
      rw [hks] at h
      simpa [Function.comp, LexEntry.keySpan, List.map_map] using h
    · simpa [Function.comp, LexEntry.keySpan, List.map_map] using h
  exact ⟨hmain, by rw [hmain]⟩

/-- Claim C9: for every well-formed key-sequence text, `parse` succeeds and
`to_text` reproduces the text (left-inverse round trip); on a text with an
unrecognized token, `parse` fails with a `FormatError`. -/
theorem c9_parse_round_trip (s : Str) :
    (wellFormedKeyText s = true →
      ∃ k, StenoKeys.parse s = .ok k ∧ StenoKeys.toText k = s) ∧
    (wellFormedKeyText s = false →
      ∃ fe, StenoKeys.parse s = .error fe) := by
  constructor
  · intro hwf
    refine ⟨⟨s⟩, ?_, rfl⟩
    unfold StenoKeys.parse
    have hnone : s.find? (fun c => !(STENO_CHARS.contains c)) = none := by
      apply List.find?_eq_none.mpr
      intro c hc
      have hcmem := (List.all_eq_true.mp hwf) c hc
      simpa using hcmem
    rw [hnone]
  · intro hbad
    have hbad' : s.all (fun c => STENO_CHARS.contains c) = false := hbad
    rcases List.all_eq_false.mp hbad' with ⟨c, hc, hnc⟩
    have hex : ∃ x ∈ s, (fun c => !(STENO_CHARS.contains c)) x = true := by
      refine ⟨c, hc, ?_⟩
      simpa using hnc
    rcases Option.isSome_iff_exists.mp (List.find?_isSome.mpr hex) with ⟨c', hc'⟩
    exact ⟨⟨c'⟩, by unfold StenoKeys.parse; rw [hc']⟩

/-- Witness for C9 at concrete inputs: `"STKAT"` round-trips and `"q"`
fails to parse. -/
theorem c9_parse_round_trip_witness :
    (∃ k, StenoKeys.parse ("STKAT".toList) = .ok k ∧
      StenoKeys.toText k = "STKAT".toList) ∧
    (∃ fe, StenoKeys.parse ("q".toList) = .error fe) :=
  ⟨(c9_parse_round_trip _).1 (by decide), (c9_parse_round_trip _).2 (by decide)⟩

theorem assocFind_mem {α : Type} (l : List (Str × α)) (k : Str) (v : α)
    (h : assocFind l k = some v) : (k, v) ∈ l := by
  induction l with
  | nil => simp [assocFind] at h
  | cons hd tl ih =>
    rcases hd with ⟨k', v'⟩
    by_cases hk : k' = k
    · subst hk
      simp [assocFind] at h
      simp [h]
    · simp [assocFind, hk] at h
      exact List.mem_cons_of_mem _ (ih h)

theorem init_fold_eq (d : List (Str × LexRule)) :
    ∀ m0 : LexerRuleMatcher,
      d.foldl LexerRuleMatcher.initStep m0 =
        ⟨(d.filter catSpec).reverse ++ m0.specialD,
         ((d.filter catStrk).map (fun nr => (nr.2.keys, nr.2))).reverse ++ m0.strokeD,
         ((d.filter catWord).map (fun nr => (nr.2.letters, nr.2))).reverse ++ m0.wordD,
         ((d.filter catTree).map
            (fun nr => PTEntry.mk nr.2.keys nr.2.letters nr.2)).reverse ++ m0.ptre⟩ := by
  induction d with
  | nil => intro m0; simp
  | cons nr dt ih =>
    intro m0
    simp only [List.foldl_cons]
    rw [ih]
    by_cases h1 : (['S', 'P', 'E', 'C'] : Str) ∈ nr.2.flags
    · simp [LexerRuleMatcher.initStep, h1, catSpec, catStrk, catWord, catTree,
        List.filter_cons]
    · by_cases h2 : (['S', 'T', 'R', 'K'] : Str) ∈ nr.2.flags
      · simp [LexerRuleMatcher.initStep, h1, h2, catSpec, catStrk, catWord, catTree,
          List.filter_cons]
      · by_cases h3 : (['W', 'O', 'R', 'D'] : Str) ∈ nr.2.flags
        · simp [LexerRuleMatcher.initStep, h1, h2, h3, catSpec, catStrk, catWord,
            catTree, List.filter_cons]
        · simp [LexerRuleMatcher.initStep, h1, h2, h3, catSpec, catStrk, catWord,
            catTree, List.filter_cons]

theorem init_eq (d : List (Str × LexRule)) :
    LexerRuleMatcher.init d =
      ⟨(d.filter catSpec).reverse,
       ((d.filter catStrk).map (fun nr => (nr.2.keys, nr.2))).reverse,
       ((d.filter catWord).map (fun nr => (nr.2.letters, nr.2))).reverse,
       ((d.filter catTree).map
          (fun nr => PTEntry.mk nr.2.keys nr.2.letters nr.2)).reverse⟩ := by
  unfold LexerRuleMatcher.init
  rw [init_fold_eq]
  simp

theorem mem_init_specialD (d : List (Str × LexRule)) (n : Str) (r : LexRule) :
    (n, r) ∈ (LexerRuleMatcher.init d).specialD ↔
      (n, r) ∈ d ∧ "SPEC".toList ∈ r.flags := by
  rw [init_eq]
  simp [catSpec, and_comm]

theorem mem_init_strokeD (d : List (Str × LexRule)) (kk : Str) (r : LexRule) :
    (kk, r) ∈ (LexerRuleMatcher.init d).strokeD ↔
      ∃ n, (n, r) ∈ d ∧ kk = r.keys ∧
        ¬ "SPEC".toList ∈ r.flags ∧ "STRK".toList ∈ r.flags := by
  rw [init_eq]
  simp only [List.mem_reverse, List.mem_map, List.mem_filter]
  constructor
  · rintro ⟨⟨n, r'⟩, ⟨hmem, hcat⟩, heq⟩
    have hr : r' = r := congrArg Prod.snd heq
    have hk : kk = r.keys := by
      have := congrArg Prod.fst heq
      simp at this
      rw [← this, hr]
    subst hr
    simp only [catStrk, catSpec, Bool.and_eq_true, Bool.not_eq_true',
      decide_eq_false_iff_not, decide_eq_true_eq] at hcat
    exact ⟨n, hmem, hk, hcat.1, hcat.2⟩
  · rintro ⟨n, hmem, hk, hspec, hstrk⟩
    refine ⟨(n, r), ⟨hmem, ?_⟩, by simp [hk]⟩
    simp only [catStrk, catSpec, Bool.and_eq_true, Bool.not_eq_true',
      decide_eq_false_iff_not, decide_eq_true_eq]
    exact ⟨hspec, hstrk⟩

theorem mem_init_wordD (d : List (Str × LexRule)) (kk : Str) (r : LexRule) :
    (kk, r) ∈ (LexerRuleMatcher.init d).wordD ↔
      ∃ n, (n, r) ∈ d ∧ kk = r.letters ∧
        ¬ "SPEC".toList ∈ r.flags ∧ ¬ "STRK".toList ∈ r.flags ∧
        "WORD".toList ∈ r.flags := by
  rw [init_eq]
  simp only [List.mem_reverse, List.mem_map, List.mem_filter]
  constructor
  · rintro ⟨⟨n, r'⟩, ⟨hmem, hcat⟩, heq⟩
    have hr : r' = r := congrArg Prod.snd heq
    have hk : kk = r.letters := by
      have := congrArg Prod.fst heq
      simp at this
      rw [← this, hr]
    subst hr
    simp only [catWord, catSpec, Bool.and_eq_true, Bool.not_eq_true',
      decide_eq_false_iff_not, decide_eq_true_eq] at hcat
    exact ⟨n, hmem, hk, hcat.1.1, hcat.1.2, hcat.2⟩
  · rintro ⟨n, hmem, hk, hspec, hstrk, hword⟩
    refine ⟨(n, r), ⟨hmem, ?_⟩, by simp [hk]⟩
    simp only [catWord, catSpec, Bool.and_eq_true, Bool.not_eq_true',
      decide_eq_false_iff_not, decide_eq_true_eq]
    exact ⟨⟨hspec, hstrk⟩, hword⟩

theorem mem_init_ptre (d : List (Str × LexRule)) (en : PTEntry) :
    en ∈ (LexerRuleMatcher.init d).ptre ↔
      ∃ n, (n, en.rule) ∈ d ∧ en.keys = en.rule.keys ∧ en.letters = en.rule.letters ∧
        ¬ "SPEC".toList ∈ en.rule.flags ∧ ¬ "STRK".toList ∈ en.rule.flags ∧
        ¬ "WORD".toList ∈ en.rule.flags := by
  rw [init_eq]
  simp only [List.mem_reverse, List.mem_map, List.mem_filter]
  constructor
  · rintro ⟨⟨n, r'⟩, ⟨hmem, hcat⟩, heq⟩
    subst heq
    simp only [catTree, catSpec, Bool.and_eq_true, Bool.not_eq_true',
      decide_eq_false_iff_not, decide_eq_true_eq] at hcat
    exact ⟨n, hmem, rfl, rfl, hcat.1.1, hcat.1.2, hcat.2⟩
  · rintro ⟨n, hmem, hke, hle, hspec, hstrk, hword⟩
    refine ⟨(n, en.rule), ⟨hmem, ?_⟩, ?_⟩
    · simp only [catTree, catSpec, Bool.and_eq_true, Bool.not_eq_true',
        decide_eq_false_iff_not, decide_eq_true_eq]
      exact ⟨⟨hspec, hstrk⟩, hword⟩
    · cases en
      simp at hke hle
      simp [hke, hle]

theorem strokeMatch_len (m : LexerRuleMatcher) (ks ls : Str) :
    (m.strokeMatch ks ls).length ≤ 1 := by
  unfold LexerRuleMatcher.strokeMatch
  split
  · split <;> simp
  · simp

theorem wordMatch_len (m : LexerRuleMatcher) (ks ls : Str) :
    (m.wordMatch ks ls).length ≤ 1 := by
  unfold LexerRuleMatcher.wordMatch
  split
  · split <;> simp
  · simp

theorem strokeMatch_sound (m : LexerRuleMatcher) (ks ls : Str) (r : LexRule)
    (h : r ∈ m.strokeMatch ks ls) :
    assocFind m.strokeD (firstStroke ks) = some r ∧ containsSub ls r.letters = true := by
  unfold LexerRuleMatcher.strokeMatch at h
  split at h
  · next r' heq =>
    split at h
    · next hsub =>
      simp at h
      subst h
      exact ⟨heq, hsub⟩
    · simp at h
  · simp at h

theorem wordMatch_sound (m : LexerRuleMatcher) (ks ls : Str) (r : LexRule)
    (h : r ∈ m.wordMatch ks ls) :
    assocFind m.wordD (strPfx (lstripL ls)) = some r ∧ keysStartWith ks r.keys = true := by
  unfold LexerRuleMatcher.wordMatch at h
  split at h
  · next r' heq =>
    split at h
    · next hsub =>
      simp at h
      subst h
      exact ⟨heq, hsub⟩
    · simp at h
  · simp at h

/-- Claim C10: the candidate list returned by `match` is the prefix-structure
matches first, then at most one rule contributed by the stroke map, then at
most one rule contributed by the word map. -/
theorem c10_match_candidate_order (m : LexerRuleMatcher) (ks ls : Str)
    (fs fw : Bool) :
    ∃ smat wmat,
      m.matchRules ks ls fs fw = ptMatch m.ptre ks ls ++ smat ++ wmat ∧
      smat.length ≤ 1 ∧ wmat.length ≤ 1 ∧
      (∀ r ∈ smat, assocFind m.strokeD (firstStroke ks) = some r) ∧
      (∀ r ∈ wmat, assocFind m.wordD (strPfx (lstripL ls)) = some r) := by
  refine ⟨if fs then m.strokeMatch ks ls else [],
          if fw then m.wordMatch ks ls else [], rfl, ?_, ?_, ?_, ?_⟩
  · cases fs
    · simp
    · simpa using strokeMatch_len m ks ls
  · cases fw
    · simp
    · simpa using wordMatch_len m ks ls
  · intro r hr
    cases fs
    · simp at hr
    · simp at hr
      exact (strokeMatch_sound m ks ls r hr).1
  · intro r hr
    cases fw
    · simp at hr
    · simp at hr
      exact (wordMatch_sound m ks ls r hr).1

/-- Witness for C10 at a concrete matcher and window. -/
theorem c10_match_candidate_order_witness :
    ∃ smat wmat,
      (LexerRuleMatcher.init wRules).matchRules ("KAT".toList) ("cat".toList) true true =
        ptMatch (LexerRuleMatcher.init wRules).ptre ("KAT".toList) ("cat".toList) ++
          smat ++ wmat ∧
      smat.length ≤ 1 ∧ wmat.length ≤ 1 ∧
      (∀ r ∈ smat,
        assocFind (LexerRuleMatcher.init wRules).strokeD
          (firstStroke ("KAT".toList)) = some r) ∧
      (∀ r ∈ wmat,
        assocFind (LexerRuleMatcher.init wRules).wordD
          (strPfx (lstripL ("cat".toList))) = some r) :=
  c10_match_candidate_order (LexerRuleMatcher.init wRules) ("KAT".toList)
    ("cat".toList) true true

/-- Claim C6: with `at_stroke_boundary` false, no STROKE-EXACT-flagged rule
is ever returned by `match` of a matcher built from a rule store; with it
true, the stroke-map rule for the first stroke of the remaining keys is in
the result exactly when its letters occur as a substring of the remaining
letters. -/
theorem c6_stroke_rule_gating (d : List (Str × LexRule)) (ks ls : Str) (fw : Bool) :
    (∀ r ∈ (LexerRuleMatcher.init d).matchRules ks ls false fw,
      ¬ "STRK".toList ∈ r.flags) ∧
    (∀ r, assocFind (LexerRuleMatcher.init d).strokeD (firstStroke ks) = some r →
      (r ∈ (LexerRuleMatcher.init d).matchRules ks ls true fw ↔
        containsSub ls r.letters = true)) := by
  constructor
  · intro r hr
    unfold LexerRuleMatcher.matchRules at hr
    simp only [if_neg (by simp : ¬ false = true), List.append_nil] at hr
    rcases List.mem_append.mp hr with hpt | hw
    · simp only [ptMatch, List.mem_map, List.mem_filter, Bool.and_eq_true] at hpt
      rcases hpt with ⟨en, ⟨hen, _⟩, rfl⟩
      rcases (mem_init_ptre d en).mp hen with ⟨_, _, _, _, _, hstrk, _⟩
      exact hstrk
    · cases fw with
      | false => simp at hw
      | true =>
        simp only [if_pos rfl] at hw
        rcases wordMatch_sound _ _ _ _ hw with ⟨hfind, _⟩
        rcases (mem_init_wordD d _ r).mp (assocFind_mem _ _ _ hfind) with
          ⟨_, _, _, _, hstrk, _⟩
        exact hstrk
  · intro r hfind
    have hmemS := assocFind_mem _ _ _ hfind
    rcases (mem_init_strokeD d _ r).mp hmemS with ⟨_, _, _, hspec, hstrk⟩
    constructor
    · intro hr
      unfold LexerRuleMatcher.matchRules at hr
      rcases List.mem_append.mp hr with hsw | hw
      · rcases List.mem_append.mp hsw with hpt | hs
        · simp only [ptMatch, List.mem_map, List.mem_filter, Bool.and_eq_true] at hpt
          rcases hpt with ⟨en, ⟨hen, _⟩, heq⟩
          rcases (mem_init_ptre d en).mp hen with ⟨_, _, _, _, _, hstrk', _⟩
          rw [heq] at hstrk'
          exact absurd hstrk hstrk'
        · simp only [if_pos rfl] at hs
          exact (strokeMatch_sound _ _ _ _ hs).2
      · cases fw with
        | false => simp at hw
        | true =>
          simp only [if_pos rfl] at hw
          rcases wordMatch_sound _ _ _ _ hw with ⟨hfindW, _⟩
          rcases (mem_init_wordD d _ r).mp (assocFind_mem _ _ _ hfindW) with
            ⟨_, _, _, _, hstrk', _⟩
          exact absurd hstrk hstrk'
    · intro hsub
      unfold LexerRuleMatcher.matchRules
      apply List.mem_append.mpr
      left
      apply List.mem_append.mpr
      right
      simp [LexerRuleMatcher.strokeMatch, hfind, hsub]

/-- Witness for C6: a prefix-matched rule carries no STRK flag, and a
stroke rule whose letters occur in the remaining letters is returned at a
stroke boundary. -/
theorem c6_stroke_rule_gating_witness :
    ¬ "STRK".toList ∈ wrPfx.flags ∧
    wrStrk ∈ (LexerRuleMatcher.init wRules).matchRules ("KAT".toList)
      ("cat".toList) true false :=
  ⟨(c6_stroke_rule_gating wRules ("KAT".toList) ("cat".toList) false).1 wrPfx
      (by decide),
   ((c6_stroke_rule_gating wRules ("KAT".toList) ("cat".toList) false).2 wrStrk
      (by decide)).mpr (by decide)⟩

/-- Claim C7: the matcher construction files every rule of the store into
the one lookup structure chosen by flag priority (`SPEC` into the
name-indexed map, else `STRK` into the stroke-keyed map, else `WORD` into
the letters-keyed map, else the prefix structure), and no rule value
appears in more than one of the four structures. -/
theorem c7_filing_priority (d : List (Str × LexRule)) :
    (∀ n r, (n, r) ∈ d →
      ("SPEC".toList ∈ r.flags → (n, r) ∈ (LexerRuleMatcher.init d).specialD) ∧
      (¬ "SPEC".toList ∈ r.flags → "STRK".toList ∈ r.flags →
        (r.keys, r) ∈ (LexerRuleMatcher.init d).strokeD) ∧
      (¬ "SPEC".toList ∈ r.flags → ¬ "STRK".toList ∈ r.flags →
        "WORD".toList ∈ r.flags →
        (r.letters, r) ∈ (LexerRuleMatcher.init d).wordD) ∧
      (¬ "SPEC".toList ∈ r.flags → ¬ "STRK".toList ∈ r.flags →
        ¬ "WORD".toList ∈ r.flags →
        PTEntry.mk r.keys r.letters r ∈ (LexerRuleMatcher.init d).ptre)) ∧
    (∀ r : LexRule,
      ¬ (filedSpecial (LexerRuleMatcher.init d) r ∧
         filedStroke (LexerRuleMatcher.init d) r) ∧
      ¬ (filedSpecial (LexerRuleMatcher.init d) r ∧
         filedWord (LexerRuleMatcher.init d) r) ∧
      ¬ (filedSpecial (LexerRuleMatcher.init d) r ∧
         filedTree (LexerRuleMatcher.init d) r) ∧
      ¬ (filedStroke (LexerRuleMatcher.init d) r ∧
         filedWord (LexerRuleMatcher.init d) r) ∧
      ¬ (filedStroke (LexerRuleMatcher.init d) r ∧
         filedTree (LexerRuleMatcher.init d) r) ∧
      ¬ (filedWord (LexerRuleMatcher.init d) r ∧
         filedTree (LexerRuleMatcher.init d) r)) := by
  have hS : ∀ r, filedSpecial (LexerRuleMatcher.init d) r → "SPEC".toList ∈ r.flags := by
    rintro r ⟨n, hn⟩
    exact ((mem_init_specialD d n r).mp hn).2
  have hK : ∀ r, filedStroke (LexerRuleMatcher.init d) r →
      ¬ "SPEC".toList ∈ r.flags ∧ "STRK".toList ∈ r.flags := by
    rintro r ⟨kk, hk⟩
    rcases (mem_init_strokeD d kk r).mp hk with ⟨_, _, _, h1, h2⟩
    exact ⟨h1, h2⟩
  have hW : ∀ r, filedWord (LexerRuleMatcher.init d) r →
      ¬ "SPEC".toList ∈ r.flags ∧ ¬ "STRK".toList ∈ r.flags ∧
        "WORD".toList ∈ r.flags := by
    rintro r ⟨kk, hk⟩
    rcases (mem_init_wordD d kk r).mp hk with ⟨_, _, _, h1, h2, h3⟩
    exact ⟨h1, h2, h3⟩
  have hT : ∀ r, filedTree (LexerRuleMatcher.init d) r →
      ¬ "SPEC".toList ∈ r.flags ∧ ¬ "STRK".toList ∈ r.flags ∧
        ¬ "WORD".toList ∈ r.flags := by
    rintro r ⟨en, hen, hrule⟩
    rcases (mem_init_ptre d en).mp hen with ⟨_, _, _, _, h1, h2, h3⟩
    rw [hrule] at h1 h2 h3
    exact ⟨h1, h2, h3⟩
  constructor
  · intro n r hmem
    refine ⟨?_, ?_, ?_, ?_⟩
    · intro h1
      exact (mem_init_specialD d n r).mpr ⟨hmem, h1⟩
    · intro h1 h2
      exact (mem_init_strokeD d r.keys r).mpr ⟨n, hmem, rfl, h1, h2⟩
    · intro h1 h2 h3
      exact (mem_init_wordD d r.letters r).mpr ⟨n, hmem, rfl, h1, h2, h3⟩
    · intro h1 h2 h3
      exact (mem_init_ptre d ⟨r.keys, r.letters, r⟩).mpr ⟨n, hmem, rfl, rfl, h1, h2, h3⟩
  · intro r
    refine ⟨?_, ?_, ?_, ?_, ?_, ?_⟩
    · rintro ⟨ha, hb⟩
      exact (hK r hb).1 (hS r ha)
    · rintro ⟨ha, hb⟩
      exact (hW r hb).1 (hS r ha)
    · rintro ⟨ha, hb⟩
      exact (hT r hb).1 (hS r ha)
    · rintro ⟨ha, hb⟩
      exact (hW r hb).2.1 (hK r ha).2
    · rintro ⟨ha, hb⟩
      exact (hT r hb).2.1 (hK r ha).2
    · rintro ⟨ha, hb⟩
      exact (hT r hb).2.2 (hW r ha).2.2

/-- Witness for C7: in the concrete store, the STRK rule lands in the
stroke-keyed map and is absent from both the name-indexed and word maps. -/
theorem c7_filing_priority_witness :
    (wrStrk.keys, wrStrk) ∈ (LexerRuleMatcher.init wRules).strokeD ∧
    ¬ (filedSpecial (LexerRuleMatcher.init wRules) wrStrk ∧
       filedStroke (LexerRuleMatcher.init wRules) wrStrk) :=
  ⟨(((c7_filing_priority wRules).1 ("sw".toList) wrStrk (by decide)).2.1
      (by decide) (by decide)),
   ((c7_filing_priority wRules).2 wrStrk).1⟩

theorem idxOfC_cons_self (c : Char) (t : Str) : idxOfC c (c :: t) = 0 := by
  simp [idxOfC]

theorem idxOfC_cons_ne (c d : Char) (t : Str) (h : ¬ d = c) :
    idxOfC c (d :: t) = idxOfC c t + 1 := by
  simp [idxOfC, h]

theorem idxOfC_append_of_not_mem (c : Char) (a b : Str) (h : ¬ c ∈ a) :
    idxOfC c (a ++ b) = a.length + idxOfC c b := by
  induction a with
  | nil => simp
  | cons d t ih =>
    have hd : ¬ d = c := by rintro rfl; exact h (by simp)
    have ht : ¬ c ∈ t := fun hm => h (by simp [hm])
    simp only [List.cons_append, idxOfC_cons_ne c d _ hd, ih ht, List.length_cons]
    omega

theorem sliceL_append_take (u v : Str) (m : Nat) :
    sliceL (u ++ v) u.length (u.length + m) = v.take m := by
  unfold sliceL
  rw [List.take_append, List.drop_left]

theorem splitBar_no_bar (r : Str) (h : ¬ '|' ∈ r) : splitBar r = (none, r) := by
  induction r with
  | nil => rfl
  | cons c t ih =>
    have hc : ¬ c = '|' := by rintro rfl; exact h (by simp)
    have ht : ¬ '|' ∈ t := fun hm => h (by simp [hm])
    simp [splitBar, hc, ih ht]

theorem substLoop_step_ref (getf : Str → Store → Except PyErr (Option StenoRule) × Store)
    (p0 a r b : Str) (sf' : Nat) (rmap : List RuleMapItem) (st : Store)
    (ha1 : ¬ '(' ∈ a) (ha2 : ¬ ')' ∈ a)
    (hr2 : ¬ ')' ∈ r) (hr3 : ¬ '|' ∈ r) :
    RuleParser.substLoop getf p0 (sf' + 1) (a ++ '(' :: (r ++ ')' :: b)) rmap st =
      (match getf r st with
       | (.error er, st') => (.error er, st')
       | (.ok none, st') =>
         (.error (.keyError ("Illegal rule reference ".toList ++ r ++
           " in pattern ".toList ++ p0)), st')
       | (.ok (some rule), st') =>
         RuleParser.substLoop getf p0 sf' (a ++ rule.letters ++ b)
           (rmap ++ [⟨r, a.length, rule.letters.length⟩]) st') := by
  have hmem1 : '(' ∈ a ++ '(' :: (r ++ ')' :: b) := by simp
  have hmem2 : ')' ∈ a ++ '(' :: (r ++ ')' :: b) := by simp
  have hstart : idxOfC '(' (a ++ '(' :: (r ++ ')' :: b)) = a.length := by
    simp [idxOfC_append_of_not_mem _ _ _ ha1, idxOfC_cons_self]
  have hend : idxOfC ')' (a ++ '(' :: (r ++ ')' :: b)) = a.length + r.length + 1 := by
    rw [idxOfC_append_of_not_mem _ _ _ ha2,
      idxOfC_cons_ne _ _ _ (by decide : ¬ '(' = ')'),
      idxOfC_append_of_not_mem _ _ _ hr2, idxOfC_cons_self]
    omega
  have href : sliceL (a ++ '(' :: (r ++ ')' :: b)) (a.length + 1) (a.length + r.length + 1) = r := by
    have e1 : a ++ '(' :: (r ++ ')' :: b) = (a ++ ['(']) ++ (r ++ ')' :: b) := by simp
    have e2 : a.length + 1 = (a ++ ['(']).length := by simp
    have e3 : a.length + r.length + 1 = (a ++ ['(']).length + r.length := by
      simp
      omega
    rw [e1, e2, e3, sliceL_append_take]
    exact List.take_left r (')' :: b)
  have hsplice : ∀ xs : Str,
      spliceL (a ++ '(' :: (r ++ ')' :: b)) a.length (a.length + r.length + 1 + 1) xs =
        a ++ xs ++ b := by
    intro xs
    unfold spliceL
    have h1 : (a ++ '(' :: (r ++ ')' :: b)).take a.length = a := List.take_left a _
    have h2 : max a.length (a.length + r.length + 1 + 1) = a.length + r.length + 1 + 1 := by
      omega
    have h3 : (a ++ '(' :: (r ++ ')' :: b)).drop (a.length + r.length + 1 + 1) = b := by
      have e1 : a ++ '(' :: (r ++ ')' :: b) = (a ++ '(' :: (r ++ [')'])) ++ b := by simp
      have e2 : a.length + r.length + 1 + 1 = (a ++ '(' :: (r ++ [')'])).length := by
        simp
        omega
      rw [e1, e2, List.drop_left]
    rw [h1, h2, h3]
  rw [RuleParser.substLoop]
  rw [if_pos hmem1]
  show (if ')' ∈ a ++ '(' :: (r ++ ')' :: b) then _ else _) = _
  rw [if_pos hmem2]
  rw [hstart, hend]
  simp only []
  rw [show a.length + r.length + 1 + 1 - 1 = a.length + r.length + 1 from by omega]
  rw [href, splitBar_no_bar r hr3]
  cases hget : getf r st with
  | mk res stx =>
    cases res with
    | error er => simp
    | ok oro =>
      cases oro with
      | none => simp
      | some rule =>
        simp only []
        rw [hsplice rule.letters]

theorem getAux_of_parse_error (raw : List (Str × RawRule))
    (pa : Str → Store → Except PyErr StenoRule × Store) (k : Str) (st st2 : Store)
    (e : PyErr) (h1 : assocFind st k = none) (h2 : (assocFind raw k).isSome)
    (h3 : pa k st = (.error e, st2)) :
    RuleParser.getAux raw pa k st = (.error e, st2) := by
  unfold RuleParser.getAux
  rw [h1]
  rcases ho : assocFind raw k with _ | rr
  · rw [ho] at h2; simp at h2
  · rw [h3]

theorem cycAB_parse (pf : Nat) : ∀ sf, 1 ≤ sf →
    (RuleParser.parse rawCycAB pf ("A".toList) [] sf =
       (.error (if pf = 0 then .recursionLimit
         else .circular ("Circular reference descended from rule A".toList)), []) ∧
     RuleParser.parse rawCycAB pf ("B".toList) [] sf =
       (.error (if pf = 0 then .recursionLimit
         else .circular ("Circular reference descended from rule B".toList)), [])) := by
  induction pf with
  | zero =>
    intro sf h
    exact ⟨by simp [RuleParser.parse], by simp [RuleParser.parse]⟩
  | succ n ih =>
    intro sf hsf
    obtain ⟨m, rfl⟩ : ∃ m, sf = m + 1 := ⟨sf - 1, by omega⟩
    have ihA := (ih (m + 1) (by omega)).1
    have ihB := (ih (m + 1) (by omega)).2
    constructor
    · show RuleParser.parse rawCycAB (n + 1) ("A".toList) [] (m + 1) = _
      simp only [RuleParser.parse]
      rw [show assocFind rawCycAB ("A".toList) =
        some ⟨"KA".toList, "(B)".toList, [], []⟩ from rfl]
      have hget : RuleParser.getAux rawCycAB
          (fun k' st' => RuleParser.parse rawCycAB n k' st' (m + 1)) ("B".toList) [] =
          (.error (if n = 0 then .recursionLimit
            else .circular ("Circular reference descended from rule B".toList)), []) :=
        getAux_of_parse_error _ _ _ _ _ _ rfl (by rfl) ihB
      have hpat : (("(B)".toList : Str)) = [] ++ '(' :: ("B".toList ++ ')' :: []) := rfl
      have hsub := substLoop_step_ref
        (RuleParser.getAux rawCycAB (fun k' st' => RuleParser.parse rawCycAB n k' st' (m + 1)))
        ("(B)".toList) [] ("B".toList) [] m [] []
        (by simp) (by simp) (by decide) (by decide)
      rw [hget] at hsub
      rw [show ([] ++ '(' :: ("B".toList ++ ')' :: []) : Str) = "(B)".toList from rfl] at hsub
      simp only []
      rw [hsub]
      cases n with
      | zero => simp [wrapErr]
      | succ n' => simp [wrapErr]
    · show RuleParser.parse rawCycAB (n + 1) ("B".toList) [] (m + 1) = _
      simp only [RuleParser.parse]
      rw [show assocFind rawCycAB ("B".toList) =
        some ⟨"KB".toList, "(A)".toList, [], []⟩ from rfl]
      have hget : RuleParser.getAux rawCycAB
          (fun k' st' => RuleParser.parse rawCycAB n k' st' (m + 1)) ("A".toList) [] =
          (.error (if n = 0 then .recursionLimit
            else .circular ("Circular reference descended from rule A".toList)), []) :=
        getAux_of_parse_error _ _ _ _ _ _ rfl (by rfl) ihA
      have hsub := substLoop_step_ref
        (RuleParser.getAux rawCycAB (fun k' st' => RuleParser.parse rawCycAB n k' st' (m + 1)))
        ("(A)".toList) [] ("A".toList) [] m [] []
        (by simp) (by simp) (by decide) (by decide)
      rw [hget] at hsub
      rw [show ([] ++ '(' :: ("A".toList ++ ')' :: []) : Str) = "(A)".toList from rfl] at hsub
      simp only []
      rw [hsub]
      cases n with
      | zero => simp [wrapErr]
      | succ n' => simp [wrapErr]

/-- Claim C2: compiling the two-rule cyclic set `{A: references B,
B: references A}` fails with a circular-reference error for every positive
recursion budget, and the store of resolved rules is left empty — no rule
of the set is resolved, no partial store is published. -/
theorem c2_cycle_rejection (pf sf : Nat) (h1 : 1 ≤ pf) (h2 : 1 ≤ sf) :
    RuleParser.parse rawCycAB pf ("A".toList) [] sf =
      (.error (.circular ("Circular reference descended from rule A".toList)), []) := by
  have h := (cycAB_parse pf sf h2).1
  rw [if_neg (by omega)] at h
  exact h

/-- Witness for C2 at a concrete recursion budget. -/
theorem c2_cycle_rejection_witness :
    RuleParser.parse rawCycAB 5 ("A".toList) [] 5 =
      (.error (.circular ("Circular reference descended from rule A".toList)), []) :=
  c2_cycle_rejection 5 5 (by decide) (by decide)


/-- Claim C5: compiling the rule set `{"un-": keys="UN", pattern="un";
"do": keys="DO", pattern="do"; "undo": pattern="(un-)(do)"}` resolves rule
`undo` to letters `"undo"` with rule-map exactly
`[("un-", 0, 2), ("do", 2, 2)]` (run at an ample fuel budget, which the
computation does not exhaust; all three rules end in the store). -/
theorem c5_undo_scenario :
    RuleParser.parse rawUndo 10 ("undo".toList) [] 10 =
      (.ok ⟨"undo".toList, "UN/DO".toList, "undo".toList, [], [],
         [⟨"un-".toList, 0, 2⟩, ⟨"do".toList, 2, 2⟩]⟩,
       [("undo".toList,
         ⟨"undo".toList, "UN/DO".toList, "undo".toList, [], [],
          [⟨"un-".toList, 0, 2⟩, ⟨"do".toList, 2, 2⟩]⟩),
        ("do".toList, ⟨"do".toList, "DO".toList, "do".toList, [], [], []⟩),
        ("un-".toList, ⟨"un-".toList, "UN".toList, "un".toList, [], [], []⟩)]) := by
  decide

theorem containsSub_eq_true_iff (hay needle : Str) :
    containsSub hay needle = true ↔ needle <:+: hay := by
  induction hay with
  | nil =>
    rw [containsSub]
    constructor
    · intro h
      split at h
      · next hp =>
        have := List.isPrefixOf_iff_prefix.mp hp
        exact this.isInfix
      · simp at h
    · intro h
      have : needle = [] := List.eq_nil_of_infix_nil h
      subst this
      simp
  | cons c t ih =>
    rw [containsSub]
    constructor
    · intro h
      split at h
      · next hp =>
        exact (List.isPrefixOf_iff_prefix.mp hp).isInfix
      · next hp =>
        exact (List.infix_cons_iff.mpr (Or.inr (ih.mp h)))
    · intro h
      rcases List.infix_cons_iff.mp h with hpre | hinf
      · rw [if_pos (List.isPrefixOf_iff_prefix.mpr hpre)]
      · split
        · rfl
        · exact ih.mpr hinf

theorem getAux_unknown (raw : List (Str × RawRule))
    (pa : Str → Store → Except PyErr StenoRule × Store) (k : Str) (st : Store)
    (h1 : assocFind st k = none) (h2 : assocFind raw k = none) :
    RuleParser.getAux raw pa k st = (.ok none, st) := by
  unfold RuleParser.getAux
  rw [h1, h2]

/-- Counterexample for C3 as stated: resolving rule `foo` with the unknown
reference `Z` raises `KeyError("Illegal rule reference Z in pattern (Z)")`,
whose message does not contain the rule name `foo` anywhere — the error
names the reference and the pattern, not `k`. -/
theorem c3_unknown_reference_counterexample :
    RuleParser.parse rawNoRef 5 ("foo".toList) [] 5 =
      (.error (.keyError ("Illegal rule reference Z in pattern (Z)".toList)), []) ∧
    containsSub ("Illegal rule reference Z in pattern (Z)".toList) ("foo".toList) = false :=
  ⟨by decide, by decide⟩

theorem erase_eq_filter_of_count_le_one (f : Str) :
    ∀ (l : List Str), l.count f ≤ 1 → l.erase f = l.filter (fun g => ¬ g = f) := by
  intro l
  induction l with
  | nil => intro h; rfl
  | cons x t ih =>
    intro h
    by_cases hx : x = f
    · subst hx
      have hcnt : t.count x = 0 := by
        rw [List.count_cons_self] at h
        omega
      have hnm : ¬ x ∈ t := List.count_eq_zero.mp hcnt
      rw [List.erase_cons_head, List.filter_cons_of_neg (by simp)]
      symm
      apply List.filter_eq_self.mpr
      intro g hg
      simp only [decide_eq_true_eq]
      rintro rfl
      exact hnm hg
    · have hxf : ¬ f = x := fun hq => hx hq.symm
      rw [List.erase_cons_tail (by simpa using hx)]
      have hcn : t.count f ≤ 1 := by
        rw [List.count_cons_of_ne (by simpa using hxf)] at h
        exact h
      simp [hx, ih hcn]

theorem eraseFold_eq_filter :
    ∀ (kl : List Str) (fl : List Str), kl.Nodup →
      (∀ f ∈ kl, fl.count f ≤ 1) →
      ((kl.filter (fun f => f ∈ fl)).foldl (fun l f => l.erase f) fl) =
        fl.filter (fun g => ¬ g ∈ kl) := by
  intro kl
  induction kl with
  | nil => intro fl _ _; simp
  | cons f kt ih =>
    intro fl hnd hcnt
    have hndt : kt.Nodup := hnd.of_cons
    have hfkt : ¬ f ∈ kt := by
      intro hmm
      exact (List.nodup_cons.mp hnd).1 hmm
    by_cases hf : f ∈ fl
    · rw [List.filter_cons_of_pos (by simpa using hf), List.foldl_cons]
      have hstep : kt.filter (fun g => g ∈ fl) = kt.filter (fun g => g ∈ fl.erase f) := by
        apply List.filter_congr
        intro g hg
        have hne : g ≠ f := by rintro rfl; exact hfkt hg
        simp only [decide_eq_decide]
        exact (List.mem_erase_of_ne hne).symm
      have hcnt' : ∀ g ∈ kt, (fl.erase f).count g ≤ 1 := by
        intro g hg
        calc (fl.erase f).count g ≤ fl.count g := (List.erase_sublist f fl).count_le g
        _ ≤ 1 := hcnt g (List.mem_cons_of_mem _ hg)
      rw [hstep, ih (fl.erase f) hndt hcnt']
      rw [erase_eq_filter_of_count_le_one f fl (hcnt f (by simp))]
      rw [List.filter_filter]
      apply List.filter_congr
      intro g _
      by_cases h1 : g = f <;> by_cases h2 : g ∈ kt <;> simp [h1, h2]
    · rw [List.filter_cons_of_neg (by simpa using hf)]
      rw [ih fl hndt (fun g hg => hcnt g (List.mem_cons_of_mem _ hg))]
      apply List.filter_congr
      intro g hg
      have hne : g ≠ f := by rintro rfl; exact hf hg
      simp [hne]

theorem akr_fold (start : Nat) :
    ∀ (kl : List Str) (acc : List (RuleR × Nat × Nat)) (fl0 : List Str),
      (kl.foldl (fun (acc : List (RuleR × Nat × Nat) × List Str) f =>
          (acc.1 ++ [(keyRuleFor f, start, 0)], acc.2.erase f)) (acc, fl0)) =
        (acc ++ kl.map (fun f => (keyRuleFor f, start, 0)),
         kl.foldl (fun l f => l.erase f) fl0) := by
  intro kl
  induction kl with
  | nil => intro acc fl0; simp
  | cons f kt ih =>
    intro acc fl0
    simp only [List.foldl_cons, List.map_cons]
    rw [ih]
    simp

theorem addKeyRules_eq (fl : List Str) (start : Nat)
    (h : ∀ f ∈ keyFlagList, fl.count f ≤ 1) :
    addKeyRules fl start =
      ((keyFlagList.filter (fun f => f ∈ fl)).map (fun f => (keyRuleFor f, start, 0)),
       fl.filter (fun g => ¬ g ∈ keyFlagList)) := by
  unfold addKeyRules
  rw [akr_fold]
  rw [eraseFold_eq_filter keyFlagList fl (by decide) h]
  simp

/-- Claim C8 (amended): for every raw definition with a nonempty flag string
in which no key-purpose flag is repeated, the finished rule's flag list is
the split flag list with every key-purpose flag removed, and its rule-map
is the substitution rule-map followed by one zero-length entry at offset
`len(letters)` per key-purpose flag carried, each referencing the
preconstructed singleton key rule; non-key-purpose flags are kept and add
no rule-map entry. -/
theorem c8_key_flag_processing (raw : List (Str × RawRuleR)) (kk : Str)
    (st st' : StoreR) (pf sf : Nat) (rule : RuleR) (rr : RawRuleR)
    (hk : assocFind raw kk = some rr)
    (hfs : ¬ rr.flagStr = [])
    (hcount : ∀ f ∈ keyFlagList, (splitOnC '|' rr.flagStr).count f ≤ 1)
    (hres : StenoRuleParser.parse raw pf kk st sf = (.ok rule, st')) :
    ∃ subMap,
      rule.rulemap = subMap ++
        (keyFlagList.filter (fun f => f ∈ splitOnC '|' rr.flagStr)).map
          (fun f => (keyRuleFor f, rule.letters.length, 0)) ∧
      rule.flags = (splitOnC '|' rr.flagStr).filter (fun g => ¬ g ∈ keyFlagList) ∧
      (∀ f ∈ splitOnC '|' rr.flagStr, f ∈ keyFlagList →
        ¬ f ∈ rule.flags ∧ (keyRuleFor f, rule.letters.length, 0) ∈ rule.rulemap) ∧
      (∀ g ∈ splitOnC '|' rr.flagStr, ¬ g ∈ keyFlagList → g ∈ rule.flags) := by
  obtain ⟨n, rfl⟩ : ∃ n, pf = n + 1 := by
    cases pf with
    | zero => simp [StenoRuleParser.parse] at hres
    | succ n => exact ⟨n, rfl⟩
  rw [StenoRuleParser.parse] at hres
  rw [hk] at hres
  simp only [] at hres
  rcases hsub : StenoRuleParser.subst raw
      (fun k' st' => StenoRuleParser.parse raw n k' st' sf) sf rr.pattern [] st with
    ⟨res, st2⟩
  rw [hsub] at hres
  cases res with
  | error e => simp at hres
  | ok lr =>
    rcases lr with ⟨letters, rmap⟩
    simp only [if_neg hfs] at hres
    rw [addKeyRules_eq _ _ hcount] at hres
    have hrule : rule = RuleR.mk kk rr.keys letters
        ((splitOnC '|' rr.flagStr).filter (fun g => ¬ g ∈ keyFlagList)) rr.desc
        (rmap ++ (keyFlagList.filter (fun f => f ∈ splitOnC '|' rr.flagStr)).map
          (fun f => (keyRuleFor f, letters.length, 0))) := by
      have := congrArg Prod.fst hres
      simp at this
      simp only [decide_not]
      exact this.symm
  -- field facts
    have hflags : rule.flags =
        (splitOnC '|' rr.flagStr).filter (fun g => ¬ g ∈ keyFlagList) := by
      rw [hrule]; rfl
    have hletters : rule.letters = letters := by rw [hrule]; rfl
    have hmap : rule.rulemap = rmap ++
        (keyFlagList.filter (fun f => f ∈ splitOnC '|' rr.flagStr)).map
          (fun f => (keyRuleFor f, letters.length, 0)) := by
      rw [hrule]; rfl
    refine ⟨rmap, ?_, hflags, ?_, ?_⟩
    · rw [hmap, hletters]
    · intro f hf hkf
      constructor
      · rw [hflags]
        intro hmem
        rcases List.mem_filter.mp hmem with ⟨_, hcond⟩
        simp only [decide_eq_true_eq] at hcond
        exact hcond hkf
      · rw [hmap, hletters]
        apply List.mem_append.mpr
        right
        apply List.mem_map.mpr
        exact ⟨f, List.mem_filter.mpr ⟨hkf, by simpa using hf⟩, rfl⟩
    · intro g hg hng
      rw [hflags]
      exact List.mem_filter.mpr ⟨hg, by simpa using hng⟩

/-- Counterexample for C8 as stated: a raw definition carrying the key flag
`*:??` twice keeps one occurrence of it in the finished rule's flag list —
the flag is not removed from the flag set as the claim requires (only one
occurrence is removed, and only one trailing entry is appended). -/
theorem c8_key_flag_counterexample :
    (StenoRuleParser.parse rawDupFlag 5 ("k".toList) [] 5).1 =
      .ok (.mk ("k".toList) ("K*".toList) ("a".toList) ["*:??".toList] []
        [(keyRuleFor ("*:??".toList), 1, 0)]) ∧
    "*:??".toList ∈ (RuleR.mk ("k".toList) ("K*".toList) ("a".toList)
        ["*:??".toList] [] [(keyRuleFor ("*:??".toList), 1, 0)]).flags :=
  ⟨rfl, by decide⟩

/-- Witness for C8 (amended) at the concrete definition with flag string
`"STRK|*:AB"`. -/
theorem c8_key_flag_processing_witness :
    ∃ subMap,
      (RuleR.mk ("k".toList) ("K*".toList) ("ab".toList) ["STRK".toList] []
          [(keyRuleFor ("*:AB".toList), 2, 0)]).rulemap = subMap ++
        (keyFlagList.filter (fun f => f ∈ splitOnC '|'
            (⟨"K*".toList, "ab".toList, "STRK|*:AB".toList, []⟩ : RawRuleR).flagStr)).map
          (fun f => (keyRuleFor f,
            (RuleR.mk ("k".toList) ("K*".toList) ("ab".toList) ["STRK".toList] []
              [(keyRuleFor ("*:AB".toList), 2, 0)]).letters.length, 0)) ∧
      (RuleR.mk ("k".toList) ("K*".toList) ("ab".toList) ["STRK".toList] []
          [(keyRuleFor ("*:AB".toList), 2, 0)]).flags =
        (splitOnC '|' (⟨"K*".toList, "ab".toList, "STRK|*:AB".toList, []⟩ : RawRuleR).flagStr).filter
          (fun g => ¬ g ∈ keyFlagList) ∧
      (∀ f ∈ splitOnC '|' (⟨"K*".toList, "ab".toList, "STRK|*:AB".toList, []⟩ : RawRuleR).flagStr,
        f ∈ keyFlagList →
        ¬ f ∈ (RuleR.mk ("k".toList) ("K*".toList) ("ab".toList) ["STRK".toList] []
            [(keyRuleFor ("*:AB".toList), 2, 0)]).flags ∧
        (keyRuleFor f,
          (RuleR.mk ("k".toList) ("K*".toList) ("ab".toList) ["STRK".toList] []
            [(keyRuleFor ("*:AB".toList), 2, 0)]).letters.length, 0) ∈
          (RuleR.mk ("k".toList) ("K*".toList) ("ab".toList) ["STRK".toList] []
            [(keyRuleFor ("*:AB".toList), 2, 0)]).rulemap) ∧
      (∀ g ∈ splitOnC '|' (⟨"K*".toList, "ab".toList, "STRK|*:AB".toList, []⟩ : RawRuleR).flagStr,
        ¬ g ∈ keyFlagList →
        g ∈ (RuleR.mk ("k".toList) ("K*".toList) ("ab".toList) ["STRK".toList] []
          [(keyRuleFor ("*:AB".toList), 2, 0)]).flags) :=
  c8_key_flag_processing rawOneFlag ("k".toList) []
    [("k".toList, RuleR.mk ("k".toList) ("K*".toList) ("ab".toList) ["STRK".toList] []
        [(keyRuleFor ("*:AB".toList), 2, 0)])] 5 5
    (RuleR.mk ("k".toList) ("K*".toList) ("ab".toList) ["STRK".toList] []
      [(keyRuleFor ("*:AB".toList), 2, 0)])
    ⟨"K*".toList, "ab".toList, "STRK|*:AB".toList, []⟩
    rfl (by decide) (by decide) rfl

theorem idxOfC_le_length (c : Char) : ∀ p : Str, idxOfC c p ≤ p.length := by
  intro p
  induction p with
  | nil => simp [idxOfC]
  | cons d t ih =>
    by_cases hd : d = c
    · simp [idxOfC, hd]
    · simp only [idxOfC, if_neg hd, List.length_cons]
      omega

theorem not_mem_take_idxOfC (c : Char) : ∀ p : Str, ¬ c ∈ p.take (idxOfC c p) := by
  intro p
  induction p with
  | nil => simp [idxOfC]
  | cons d t ih =>
    by_cases hd : d = c
    · simp [idxOfC, hd]
    · simp only [idxOfC, if_neg hd, List.take_succ_cons, List.mem_cons]
      rintro (h | h)
      · exact hd h.symm
      · exact ih h

theorem idxOfC_eq_length_of_not_mem (c : Char) :
    ∀ p : Str, ¬ c ∈ p → idxOfC c p = p.length := by
  intro p
  induction p with
  | nil => intro _; rfl
  | cons d t ih =>
    intro h
    have hd : ¬ d = c := by rintro rfl; exact h (by simp)
    have ht : ¬ c ∈ t := fun hm => h (by simp [hm])
    simp [idxOfC, hd, ih ht]

theorem brackets_append (x y : Str) : brackets (x ++ y) = brackets x ++ brackets y := by
  simp [brackets]

theorem brackets_eq_nil (x : Str) (h1 : ¬ '(' ∈ x) (h2 : ¬ ')' ∈ x) :
    brackets x = [] := by
  unfold brackets
  apply List.filter_eq_nil_iff.mpr
  intro c hc
  simp only [Bool.or_eq_true, decide_eq_true_eq]
  rintro (rfl | rfl)
  · exact h1 hc
  · exact h2 hc

theorem splitBar_some_decomp :
    ∀ (v a kk : Str), splitBar v = (some a, kk) → v = a ++ '|' :: kk := by
  intro v
  induction v with
  | nil => intro a kk h; simp [splitBar] at h
  | cons c t ih =>
    intro a kk h
    by_cases hc : c = '|'
    · subst hc
      simp [splitBar] at h
      simp [h.1, h.2]
    · simp only [splitBar, if_neg hc] at h
      rcases hsp : splitBar t with ⟨ao, ko⟩
      rw [hsp] at h
      cases ao with
      | none => simp at h
      | some a' =>
        simp at h
        rcases h with ⟨ha, hk⟩
        rw [← ha]
        simp [ih a' ko hsp, hk]

theorem wb_no_lb_no_rb : ∀ (p : Str), wellBracketed p = true → ¬ '(' ∈ p → ¬ ')' ∈ p := by
  intro p
  induction p with
  | nil => intro _ _; simp
  | cons c t ih =>
    intro hwb h1 h2
    have hc1 : ¬ c = '(' := by rintro rfl; exact h1 (by simp)
    by_cases hc2 : c = ')'
    · subst hc2
      unfold wellBracketed at hwb
      rw [show brackets (')' :: t) = ')' :: brackets t from by simp [brackets]] at hwb
      rw [show altBr (')' :: brackets t) = false from by rw [altBr.eq_def]; simp] at hwb
      simp at hwb
    · have ht1 : ¬ '(' ∈ t := fun hm => h1 (by simp [hm])
      have ht2 : ')' ∈ t := by
        rcases List.mem_cons.mp h2 with h | h
        · exact absurd h.symm hc2
        · exact h
      have hwb' : wellBracketed t = true := by
        unfold wellBracketed at hwb ⊢
        rw [show brackets (c :: t) = brackets t from by simp [brackets, hc1, hc2]] at hwb
        exact hwb
      exact ih hwb' ht1 ht2

theorem split_first_rb : ∀ (t bs : Str), brackets t = ')' :: bs →
    ∃ v w, t = v ++ ')' :: w ∧ ¬ '(' ∈ v ∧ ¬ ')' ∈ v ∧ brackets w = bs := by
  intro t
  induction t with
  | nil => intro bs h; simp [brackets] at h
  | cons d t' ih =>
    intro bs h
    by_cases hd1 : d = '('
    · subst hd1
      rw [show brackets ('(' :: t') = '(' :: brackets t' from by simp [brackets]] at h
      simp at h
    · by_cases hd2 : d = ')'
      · subst hd2
        rw [show brackets (')' :: t') = ')' :: brackets t' from by simp [brackets]] at h
        refine ⟨[], t', by simp, by simp, by simp, ?_⟩
        exact (List.cons.injEq _ _ _ _).mp h |>.2
      · rw [show brackets (d :: t') = brackets t' from by simp [brackets, hd1, hd2]] at h
        rcases ih bs h with ⟨v, w, ht, hv1, hv2, hbw⟩
        refine ⟨d :: v, w, by simp [ht], ?_, ?_, hbw⟩
        · simp only [List.mem_cons]
          rintro (hq | hq)
          · exact hd1 hq.symm
          · exact hv1 hq
        · simp only [List.mem_cons]
          rintro (hq | hq)
          · exact hd2 hq.symm
          · exact hv2 hq

theorem wb_decomp : ∀ (p : Str), wellBracketed p = true → '(' ∈ p →
    ∃ u v w, p = u ++ '(' :: (v ++ ')' :: w) ∧
      ¬ '(' ∈ u ∧ ¬ ')' ∈ u ∧ ¬ '(' ∈ v ∧ ¬ ')' ∈ v ∧ wellBracketed w = true := by
  intro p
  induction p with
  | nil => intro _ h; simp at h
  | cons c t ih =>
    intro hwb hmem
    by_cases hc : c = '('
    · subst hc
      unfold wellBracketed at hwb
      rw [show brackets ('(' :: t) = '(' :: brackets t from by simp [brackets]] at hwb
      have hsh : ∃ bs, brackets t = ')' :: bs ∧ altBr bs = true := by
        rcases hbt : brackets t with _ | ⟨d, bs⟩
        · rw [hbt] at hwb
          rw [show altBr ['('] = false from by rw [altBr.eq_def]; simp] at hwb
          simp at hwb
        · rw [hbt] at hwb
          by_cases hd : d = ')'
          · subst hd
            rw [show altBr ('(' :: ')' :: bs) = altBr bs from by
              rw [altBr.eq_def]; simp] at hwb
            exact ⟨bs, rfl, hwb⟩
          · rw [show altBr ('(' :: d :: bs) = false from by
              rw [altBr.eq_def]; simp [hd]] at hwb
            simp at hwb
      rcases hsh with ⟨bs, hbt, hbs⟩
      rcases split_first_rb t bs hbt with ⟨v, w, ht, hv1, hv2, hbw⟩
      exact ⟨[], v, w, by simp [ht], by simp, by simp, hv1, hv2,
        by unfold wellBracketed; rw [hbw]; exact hbs⟩
    · by_cases hc2 : c = ')'
      · subst hc2
        unfold wellBracketed at hwb
        rw [show brackets (')' :: t) = ')' :: brackets t from by simp [brackets]] at hwb
        rw [show altBr (')' :: brackets t) = false from by rw [altBr.eq_def]; simp] at hwb
        simp at hwb
      · have hmt : '(' ∈ t := by
          rcases List.mem_cons.mp hmem with h | h
          · exact absurd h.symm hc
          · exact h
        have hwt : wellBracketed t = true := by
          unfold wellBracketed at hwb ⊢
          rw [show brackets (c :: t) = brackets t from by simp [brackets, hc, hc2]] at hwb
          exact hwb
        rcases ih hwt hmt with ⟨u, v, w, hp, hu1, hu2, hv1, hv2, hw⟩
        refine ⟨c :: u, v, w, by simp [hp], ?_, ?_, hv1, hv2, hw⟩
        · simp only [List.mem_cons]
          rintro (hq | hq)
          · exact hc hq.symm
          · exact hu1 hq
        · simp only [List.mem_cons]
          rintro (hq | hq)
          · exact hc2 hq.symm
          · exact hu2 hq

theorem substLoop_no_lb (getf : Str → Store → Except PyErr (Option StenoRule) × Store)
    (p0 : Str) (sf : Nat) (p : Str) (rmap : List RuleMapItem) (st : Store)
    (h : ¬ '(' ∈ p) :
    RuleParser.substLoop getf p0 sf p rmap st = (.ok (p, rmap), st) := by
  cases sf with
  | zero => rw [RuleParser.substLoop, if_neg h]
  | succ n => rw [RuleParser.substLoop, if_neg h]

theorem substLoop_zero_lb (getf : Str → Store → Except PyErr (Option StenoRule) × Store)
    (p0 : Str) (p : Str) (rmap : List RuleMapItem) (st : Store) (h : '(' ∈ p) :
    RuleParser.substLoop getf p0 0 p rmap st = (.error .loopLimit, st) := by
  rw [RuleParser.substLoop, if_pos h]

theorem substLoop_no_rb (getf : Str → Store → Except PyErr (Option StenoRule) × Store)
    (p0 : Str) (sf' : Nat) (p : Str) (rmap : List RuleMapItem) (st : Store)
    (h1 : '(' ∈ p) (h2 : ¬ ')' ∈ p) :
    RuleParser.substLoop getf p0 (sf' + 1) p rmap st =
      (.error (.valueError "is not in list".toList), st) := by
  rw [RuleParser.substLoop, if_pos h1]
  show (if ')' ∈ p then _ else _) = _
  rw [if_neg h2]

theorem substLoop_succ_unfold (getf : Str → Store → Except PyErr (Option StenoRule) × Store)
    (p0 : Str) (sf' : Nat) (p : Str) (rmap : List RuleMapItem) (st : Store)
    (h1 : '(' ∈ p) (h2 : ')' ∈ p) :
    RuleParser.substLoop getf p0 (sf' + 1) p rmap st =
      (match getf (splitBar (sliceL p (idxOfC '(' p + 1) (idxOfC ')' p + 1 - 1))).2 st with
       | (.error er, st') => (.error er, st')
       | (.ok none, st') =>
         (.error (.keyError ("Illegal rule reference ".toList ++
           (splitBar (sliceL p (idxOfC '(' p + 1) (idxOfC ')' p + 1 - 1))).2 ++
           " in pattern ".toList ++ p0)), st')
       | (.ok (some rule), st') =>
         RuleParser.substLoop getf p0 sf'
           (spliceL p (idxOfC '(' p) (idxOfC ')' p + 1)
             (match (splitBar (sliceL p (idxOfC '(' p + 1) (idxOfC ')' p + 1 - 1))).1 with
              | some a => a
              | none => rule.letters))
           (rmap ++ [⟨(splitBar (sliceL p (idxOfC '(' p + 1) (idxOfC ')' p + 1 - 1))).2,
             idxOfC '(' p,
             (match (splitBar (sliceL p (idxOfC '(' p + 1) (idxOfC ')' p + 1 - 1))).1 with
              | some a => a
              | none => rule.letters).length⟩]) st') := by
  rw [RuleParser.substLoop, if_pos h1]
  show (if ')' ∈ p then _ else _) = _
  rw [if_pos h2]

theorem idxOfC_spliceL_ge (c : Char) (p xs : Str) (e : Nat) :
    idxOfC c p ≤ idxOfC c (spliceL p (idxOfC c p) e xs) := by
  unfold spliceL
  rw [List.append_assoc,
    idxOfC_append_of_not_mem _ _ _ (not_mem_take_idxOfC c p)]
  have h2 : (p.take (idxOfC c p)).length = idxOfC c p := by
    rw [List.length_take]
    have := idxOfC_le_length c p
    omega
  omega

theorem substLoop_sorted (getf : Str → Store → Except PyErr (Option StenoRule) × Store)
    (p0 : Str) :
    ∀ (sf : Nat) (p : Str) (rmap : List RuleMapItem) (st : Store)
      (letters : Str) (rmap' : List RuleMapItem) (st' : Store),
      RuleParser.substLoop getf p0 sf p rmap st = (.ok (letters, rmap'), st') →
      ∃ extra, rmap' = rmap ++ extra ∧
        (∀ it ∈ extra, idxOfC '(' p ≤ it.start) ∧
        extra.Pairwise (fun x y => x.start ≤ y.start) := by
  intro sf
  induction sf with
  | zero =>
    intro p rmap st letters rmap' st' h
    by_cases hlp : '(' ∈ p
    · rw [substLoop_zero_lb getf p0 p rmap st hlp] at h
      simp at h
    · rw [substLoop_no_lb getf p0 0 p rmap st hlp] at h
      simp only [Prod.mk.injEq, Except.ok.injEq] at h
      refine ⟨[], by simp [h.1.2.symm], by simp, by simp⟩
  | succ n ih =>
    intro p rmap st letters rmap' st' h
    by_cases hlp : '(' ∈ p
    · by_cases hrp : ')' ∈ p
      · rw [substLoop_succ_unfold getf p0 n p rmap st hlp hrp] at h
        rcases hg : getf (splitBar (sliceL p (idxOfC '(' p + 1) (idxOfC ')' p + 1 - 1))).2 st
          with ⟨gres, gst⟩
        rw [hg] at h
        cases gres with
        | error er => simp at h
        | ok oro =>
          cases oro with
          | none => simp at h
          | some rule =>
            simp only [] at h
            rcases ih _ _ _ _ _ _ h with ⟨extra', hmap, hge, hpw⟩
            refine ⟨⟨(splitBar (sliceL p (idxOfC '(' p + 1) (idxOfC ')' p + 1 - 1))).2,
              idxOfC '(' p,
              (match (splitBar (sliceL p (idxOfC '(' p + 1) (idxOfC ')' p + 1 - 1))).1 with
               | some a => a
               | none => rule.letters).length⟩ :: extra', ?_, ?_, ?_⟩
            · rw [hmap]
              simp
            · intro it hit
              rcases List.mem_cons.mp hit with rfl | hm
              · simp
              · have hx := hge it hm
                have hy := idxOfC_spliceL_ge '(' p
                  (match (splitBar (sliceL p (idxOfC '(' p + 1) (idxOfC ')' p + 1 - 1))).1 with
                   | some a => a
                   | none => rule.letters) (idxOfC ')' p + 1)
                omega
            · rw [List.pairwise_cons]
              refine ⟨?_, hpw⟩
              intro it hit
              have hx := hge it hit
              have hy := idxOfC_spliceL_ge '(' p
                (match (splitBar (sliceL p (idxOfC '(' p + 1) (idxOfC ')' p + 1 - 1))).1 with
                 | some a => a
                 | none => rule.letters) (idxOfC ')' p + 1)
              simp only []
              omega
      · rw [substLoop_no_rb getf p0 n p rmap st hlp hrp] at h
        simp at h
    · rw [substLoop_no_lb getf p0 _ p rmap st hlp] at h
      simp only [Prod.mk.injEq, Except.ok.injEq] at h
      refine ⟨[], by simp [h.1.2.symm], by simp, by simp⟩

theorem shape_idx_start (u v w : Str) (hu1 : ¬ '(' ∈ u) :
    idxOfC '(' (u ++ '(' :: (v ++ ')' :: w)) = u.length := by
  simp [idxOfC_append_of_not_mem _ _ _ hu1, idxOfC_cons_self]

theorem shape_idx_end (u v w : Str) (hu2 : ¬ ')' ∈ u) (hv2 : ¬ ')' ∈ v) :
    idxOfC ')' (u ++ '(' :: (v ++ ')' :: w)) = u.length + v.length + 1 := by
  rw [idxOfC_append_of_not_mem _ _ _ hu2,
    idxOfC_cons_ne _ _ _ (by decide : ¬ '(' = ')'),
    idxOfC_append_of_not_mem _ _ _ hv2, idxOfC_cons_self]
  omega

theorem shape_slice (u v w : Str) :
    sliceL (u ++ '(' :: (v ++ ')' :: w)) (u.length + 1) (u.length + v.length + 1) = v := by
  have e1 : u ++ '(' :: (v ++ ')' :: w) = (u ++ ['(']) ++ (v ++ ')' :: w) := by simp
  have e2 : u.length + 1 = (u ++ ['(']).length := by simp
  have e3 : u.length + v.length + 1 = (u ++ ['(']).length + v.length := by
    simp
    omega
  rw [e1, e2, e3, sliceL_append_take]
  exact List.take_left v (')' :: w)

theorem shape_splice (u v w xs : Str) :
    spliceL (u ++ '(' :: (v ++ ')' :: w)) u.length (u.length + v.length + 1 + 1) xs =
      u ++ xs ++ w := by
  unfold spliceL
  have h1 : (u ++ '(' :: (v ++ ')' :: w)).take u.length = u := List.take_left u _
  have h2 : max u.length (u.length + v.length + 1 + 1) = u.length + v.length + 1 + 1 := by
    omega
  have h3 : (u ++ '(' :: (v ++ ')' :: w)).drop (u.length + v.length + 1 + 1) = w := by
    have e1 : u ++ '(' :: (v ++ ')' :: w) = (u ++ '(' :: (v ++ [')'])) ++ w := by simp
    have e2 : u.length + v.length + 1 + 1 = (u ++ '(' :: (v ++ [')'])).length := by
      simp
      omega
    rw [e1, e2, List.drop_left]
  rw [h1, h2, h3]

theorem shape_idx_after (u xs w : Str) (hu : ¬ '(' ∈ u) (hx : ¬ '(' ∈ xs) :
    idxOfC '(' (u ++ xs ++ w) = u.length + xs.length + idxOfC '(' w := by
  rw [List.append_assoc, idxOfC_append_of_not_mem _ _ _ hu,
    idxOfC_append_of_not_mem _ _ _ hx]
  omega

theorem parse_rulemap_sorted (raw : List (Str × RawRule)) (pf sf : Nat) (k : Str)
    (st st' : Store) (rule : StenoRule)
    (h : RuleParser.parse raw pf k st sf = (.ok rule, st')) :
    rule.rulemap.Pairwise (fun x y => x.start ≤ y.start) := by
  obtain ⟨n, rfl⟩ : ∃ n, pf = n + 1 := by
    cases pf with
    | zero => simp [RuleParser.parse] at h
    | succ n => exact ⟨n, rfl⟩
  rw [RuleParser.parse] at h
  rcases hraw : assocFind raw k with _ | rr
  · rw [hraw] at h
    simp at h
  · rw [hraw] at h
    simp only [] at h
    rcases hsub : RuleParser.substLoop
        (RuleParser.getAux raw (fun k' st' => RuleParser.parse raw n k' st' sf))
        rr.pattern sf rr.pattern [] st with ⟨res, st2⟩
    rw [hsub] at h
    cases res with
    | error e => simp at h
    | ok lr =>
      rcases lr with ⟨letters, rmap⟩
      simp only [] at h
      have hrule : rule = ⟨k, rr.keys, letters, rr.flags, rr.desc, rmap⟩ := by
        have := congrArg Prod.fst h
        simp at this
        exact this.symm
      rcases substLoop_sorted _ _ _ _ _ _ _ _ _ hsub with ⟨extra, hmap, _, hpw⟩
      rw [hrule]
      show rmap.Pairwise _
      rw [hmap]
      simpa using hpw

theorem substLoop_bounds (getf : Str → Store → Except PyErr (Option StenoRule) × Store)
    (p0 : Str)
    (hgetf : ∀ kq stq gres stq',
      (∀ e ∈ stq, ¬ '(' ∈ e.2.letters ∧ ¬ ')' ∈ e.2.letters) →
      getf kq stq = (gres, stq') →
      (∀ e ∈ stq', ¬ '(' ∈ e.2.letters ∧ ¬ ')' ∈ e.2.letters) ∧
      ∀ rule, gres = .ok (some rule) → ¬ '(' ∈ rule.letters ∧ ¬ ')' ∈ rule.letters) :
    ∀ (sf : Nat) (p : Str) (rmap : List RuleMapItem) (st : Store)
      (res : Except PyErr (Str × List RuleMapItem)) (st' : Store),
      (∀ e ∈ st, ¬ '(' ∈ e.2.letters ∧ ¬ ')' ∈ e.2.letters) →
      wellBracketed p = true →
      RuleParser.substLoop getf p0 sf p rmap st = (res, st') →
      (∀ e ∈ st', ¬ '(' ∈ e.2.letters ∧ ¬ ')' ∈ e.2.letters) ∧
      ∀ letters rmap', res = .ok (letters, rmap') →
        (¬ '(' ∈ letters ∧ ¬ ')' ∈ letters) ∧
        idxOfC '(' p ≤ letters.length ∧
        ∃ extra, rmap' = rmap ++ extra ∧
          ∀ it ∈ extra, it.start + it.length ≤ letters.length := by
  intro sf
  induction sf with
  | zero =>
    intro p rmap st res st' hst hwb h
    by_cases hlp : '(' ∈ p
    · rw [substLoop_zero_lb getf p0 p rmap st hlp] at h
      rcases h with ⟨rfl, rfl⟩ | _
      · exact ⟨hst, by intro letters rmap' hq; simp at hq⟩
    · rw [substLoop_no_lb getf p0 0 p rmap st hlp] at h
      rcases h with ⟨rfl, rfl⟩ | _
      · refine ⟨hst, ?_⟩
        intro letters rmap' hq
        simp only [Except.ok.injEq, Prod.mk.injEq] at hq
        rcases hq with ⟨rfl, rfl⟩
        have hrb := wb_no_lb_no_rb p hwb hlp
        refine ⟨⟨hlp, hrb⟩, ?_, [], by simp, by simp⟩
        rw [idxOfC_eq_length_of_not_mem _ _ hlp]
  | succ n ih =>
    intro p rmap st res st' hst hwb h
    by_cases hlp : '(' ∈ p
    · rcases wb_decomp p hwb hlp with ⟨u, v, w, hp, hu1, hu2, hv1, hv2, hww⟩
      have hrp : ')' ∈ p := by rw [hp]; simp
      rw [substLoop_succ_unfold getf p0 n p rmap st hlp hrp] at h
      have hstart : idxOfC '(' p = u.length := by rw [hp]; exact shape_idx_start u v w hu1
      have hend : idxOfC ')' p = u.length + v.length + 1 := by
        rw [hp]; exact shape_idx_end u v w hu2 hv2
      rw [hstart, hend,
        show u.length + v.length + 1 + 1 - 1 = u.length + v.length + 1 from by omega] at h
      have href : sliceL p (u.length + 1) (u.length + v.length + 1) = v := by
        rw [hp]; exact shape_slice u v w
      rw [href] at h
      rcases hg : getf (splitBar v).2 st with ⟨gres, gst⟩
      rw [hg] at h
      have hgw := hgetf _ _ _ _ hst hg
      cases gres with
      | error er =>
        simp only [] at h
        rcases h with ⟨rfl, rfl⟩ | _
        · exact ⟨hgw.1, by intro letters rmap' hq; simp at hq⟩
      | ok oro =>
        cases oro with
        | none =>
          simp only [] at h
          rcases h with ⟨rfl, rfl⟩ | _
          · exact ⟨hgw.1, by intro letters rmap' hq; simp at hq⟩
        | some rule =>
          simp only [] at h
          -- the substituted letters are bracket-free
          have hlet : ¬ '(' ∈ (match (splitBar v).1 with
              | some a => a
              | none => rule.letters) ∧
              ¬ ')' ∈ (match (splitBar v).1 with
              | some a => a
              | none => rule.letters) := by
            rcases hsb : (splitBar v).1 with _ | a
            · exact hgw.2 rule rfl
            · have hpair : splitBar v = (some a, (splitBar v).2) := by
                rcases hq : splitBar v with ⟨a?, kk⟩
                rw [hq] at hsb
                simp only [] at hsb
                simp [hsb]
              have hdec := splitBar_some_decomp v a (splitBar v).2 hpair
              constructor
              · intro hmm
                exact hv1 (by rw [hdec]; simp [hmm])
              · intro hmm
                exact hv2 (by rw [hdec]; simp [hmm])
          have hsplice : spliceL p u.length (u.length + v.length + 1 + 1)
              (match (splitBar v).1 with
               | some a => a
               | none => rule.letters) =
              u ++ (match (splitBar v).1 with
               | some a => a
               | none => rule.letters) ++ w := by
            rw [hp]; exact shape_splice u v w _
          rw [hsplice] at h
          have hwb' : wellBracketed (u ++ (match (splitBar v).1 with
              | some a => a
              | none => rule.letters) ++ w) = true := by
            unfold wellBracketed
            rw [List.append_assoc, brackets_append,
              brackets_eq_nil u hu1 hu2, brackets_append,
              brackets_eq_nil _ hlet.1 hlet.2]
            simpa [wellBracketed] using hww
          have hrec := ih _ _ _ _ _ hgw.1 hwb' h
          refine ⟨hrec.1, ?_⟩
          intro letters rmap' hq
          rcases hrec.2 letters rmap' hq with ⟨hbf, hidx, extra', hmap, hbnd⟩
          have hidx' : idxOfC '(' (u ++ (match (splitBar v).1 with
              | some a => a
              | none => rule.letters) ++ w) =
              u.length + (match (splitBar v).1 with
               | some a => a
               | none => rule.letters).length + idxOfC '(' w :=
            shape_idx_after u _ w hu1 hlet.1
          refine ⟨hbf, ?_, ⟨(splitBar v).2, u.length,
            (match (splitBar v).1 with
             | some a => a
             | none => rule.letters).length⟩ :: extra', ?_, ?_⟩
          · rw [hstart]
            omega
          · rw [hmap]
            simp
          · intro it hit
            rcases List.mem_cons.mp hit with rfl | hm
            · simp only []
              omega
            · exact hbnd it hm
    · rw [substLoop_no_lb getf p0 _ p rmap st hlp] at h
      rcases h with ⟨rfl, rfl⟩ | _
      · refine ⟨hst, ?_⟩
        intro letters rmap' hq
        simp only [Except.ok.injEq, Prod.mk.injEq] at hq
        rcases hq with ⟨rfl, rfl⟩
        have hrb := wb_no_lb_no_rb p hwb hlp
        refine ⟨⟨hlp, hrb⟩, ?_, [], by simp, by simp⟩
        rw [idxOfC_eq_length_of_not_mem _ _ hlp]

theorem parse_bounds :
    ∀ (pf : Nat) (raw : List (Str × RawRule)) (k : Str) (st : Store) (sf : Nat)
      (res : Except PyErr StenoRule) (st' : Store),
      (∀ e ∈ raw, wellBracketed e.2.pattern = true) →
      (∀ e ∈ st, ¬ '(' ∈ e.2.letters ∧ ¬ ')' ∈ e.2.letters) →
      RuleParser.parse raw pf k st sf = (res, st') →
      (∀ e ∈ st', ¬ '(' ∈ e.2.letters ∧ ¬ ')' ∈ e.2.letters) ∧
      ∀ rule, res = .ok rule →
        (¬ '(' ∈ rule.letters ∧ ¬ ')' ∈ rule.letters) ∧
        ∀ it ∈ rule.rulemap, it.start + it.length ≤ rule.letters.length := by
  intro pf
  induction pf with
  | zero =>
    intro raw k st sf res st' hraw hst h
    rw [RuleParser.parse] at h
    rcases h with ⟨rfl, rfl⟩ | _
    · exact ⟨hst, by intro rule hq; simp at hq⟩
  | succ n ih =>
    intro raw k st sf res st' hraw hst h
    rw [RuleParser.parse] at h
    rcases hfind : assocFind raw k with _ | rr
    · rw [hfind] at h
      rcases h with ⟨rfl, rfl⟩ | _
      · exact ⟨hst, by intro rule hq; simp at hq⟩
    · rw [hfind] at h
      simp only [] at h
      have hgetf : ∀ kq stq gres stq',
          (∀ e ∈ stq, ¬ '(' ∈ e.2.letters ∧ ¬ ')' ∈ e.2.letters) →
          RuleParser.getAux raw (fun k' st' => RuleParser.parse raw n k' st' sf) kq stq =
            (gres, stq') →
          (∀ e ∈ stq', ¬ '(' ∈ e.2.letters ∧ ¬ ')' ∈ e.2.letters) ∧
          ∀ rule, gres = .ok (some rule) →
            ¬ '(' ∈ rule.letters ∧ ¬ ')' ∈ rule.letters := by
        intro kq stq gres stq' hstq hg
        unfold RuleParser.getAux at hg
        rcases hsq : assocFind stq kq with _ | r0
        · rw [hsq] at hg
          rcases hrq : assocFind raw kq with _ | rr0
          · rw [hrq] at hg
            rcases hg with ⟨rfl, rfl⟩ | _
            · exact ⟨hstq, by intro rule hq; simp at hq⟩
          · rw [hrq] at hg
            simp only [] at hg
            rcases hpq : RuleParser.parse raw n kq stq sf with ⟨pres, pst⟩
            rw [hpq] at hg
            have hrec := ih raw kq stq sf pres pst hraw hstq hpq
            cases pres with
            | error e =>
              simp only [] at hg
              rcases hg with ⟨rfl, rfl⟩ | _
              · exact ⟨hrec.1, by intro rule hq; simp at hq⟩
            | ok r =>
              simp only [] at hg
              rcases hg with ⟨rfl, rfl⟩ | _
              · refine ⟨hrec.1, ?_⟩
                intro rule hq
                simp only [Except.ok.injEq, Option.some.injEq] at hq
                rw [← hq]
                exact (hrec.2 r rfl).1
        · rw [hsq] at hg
          rcases hg with ⟨rfl, rfl⟩ | _
          · refine ⟨hstq, ?_⟩
            intro rule hq
            simp only [Except.ok.injEq, Option.some.injEq] at hq
            rw [← hq]
            exact hstq (kq, r0) (assocFind_mem stq kq r0 hsq)
      rcases hq : RuleParser.substLoop
          (RuleParser.getAux raw (fun k' st' => RuleParser.parse raw n k' st' sf))
          rr.pattern sf rr.pattern [] st with ⟨sres, sst⟩
      rw [hq] at h
      have hwbp : wellBracketed rr.pattern = true := hraw (k, rr) (assocFind_mem raw k rr hfind)
      have hsl := substLoop_bounds _ rr.pattern hgetf sf rr.pattern [] st sres sst hst hwbp hq
      cases sres with
      | error e =>
        simp only [] at h
        rcases h with ⟨rfl, rfl⟩ | _
        · exact ⟨hsl.1, by intro rule hq2; simp at hq2⟩
      | ok lr =>
        rcases lr with ⟨letters, rmap⟩
        simp only [] at h
        rcases h with ⟨rfl, rfl⟩ | _
        · rcases hsl.2 letters rmap rfl with ⟨hbf, hidx, extra, hmap, hbnd⟩
          constructor
          · intro e he
            rcases List.mem_cons.mp he with rfl | hm
            · exact hbf
            · exact hsl.1 e hm
          · intro rule hq2
            simp only [Except.ok.injEq] at hq2
            rw [← hq2]
            refine ⟨hbf, ?_⟩
            intro it hit
            rw [hmap] at hit
            simp only [List.nil_append] at hit
            exact hbnd it hit

theorem addKeyRules_entries (fl : List Str) (start : Nat) :
    ∀ e ∈ (addKeyRules fl start).1, e.2.1 = start ∧ e.2.2 = 0 := by
  intro e he
  unfold addKeyRules at he
  rw [akr_fold] at he
  simp only [List.nil_append] at he
  rcases List.mem_map.mp he with ⟨f, _, rfl⟩
  exact ⟨rfl, rfl⟩

/-- Claim C4 (amended): for every rule the `steno/rules.py` compiler
(`RuleParser`) produces, the rule-map entries are sorted by non-decreasing
start offset — this part holds for arbitrary inputs; and provided every raw
pattern's bracket characters form complete, non-nested, alternating pairs
(and every rule already in the store has bracket-free letters), every entry
also satisfies start + length ≤ the rule's letters length. The
`rules/parser.py` compiler guarantees neither property for its substitution
entries (see this claim's counterexample), but every zero-length key-flag
entry its `RuleMap.add_key_rules` appends sits exactly at the offset it is
given — `len(letters)` at its call site — and so satisfies the bound. -/
theorem c4_rulemap_invariants (raw : List (Str × RawRule)) (pf sf : Nat) (k : Str)
    (st st' : Store) (rule : StenoRule)
    (hres : RuleParser.parse raw pf k st sf = (.ok rule, st')) :
    rule.rulemap.Pairwise (fun x y => x.start ≤ y.start) ∧
    ((∀ e ∈ raw, wellBracketed e.2.pattern = true) →
     (∀ e ∈ st, ¬ '(' ∈ e.2.letters ∧ ¬ ')' ∈ e.2.letters) →
     ∀ it ∈ rule.rulemap, it.start + it.length ≤ rule.letters.length) ∧
    (∀ (fl : List Str) (nl : Nat), ∀ e ∈ (addKeyRules fl nl).1,
      e.2.1 = nl ∧ e.2.2 = 0 ∧ e.2.1 + e.2.2 ≤ nl) := by
  refine ⟨parse_rulemap_sorted raw pf sf k st st' rule hres, ?_, ?_⟩
  · intro hraw hst
    exact ((parse_bounds pf raw k st sf (.ok rule) st' hraw hst hres).2 rule rfl).2
  · intro fl nl e he
    have h := addKeyRules_entries fl nl e he
    exact ⟨h.1, h.2, by omega⟩

/-- Counterexample for C4 as stated, for both compilers. `RuleParser`
(`steno/rules.py`): the rule set `rawAliasLB` (whose `par` pattern `((|e)x)`
aliases the letter text `(`) produces a rule with empty letters whose
rule-map entry `(e, 0, 1)` has start + length = 1, exceeding the letters
length 0. `StenoRuleParser` (`rules/parser.py`): the rule set `rawSwap`
(whose `par` pattern `([e|x]y)` substitutes the inner `[e|x]` span first)
produces a rule with letters `q` and rule-map entries at starts 1 then 0 —
not sorted — whose first entry has start + length = 2, exceeding the
letters length 1. -/
theorem c4_rulemap_invariants_counterexample :
    ((RuleParser.parse rawAliasLB 10 ("par".toList) [] 10).1 =
      .ok ⟨"par".toList, [], [], [], [],
        [⟨"e".toList, 0, 1⟩, ⟨"x".toList, 0, 0⟩]⟩ ∧
    ¬ (∀ it ∈ (StenoRule.mk ("par".toList) [] [] [] []
          [⟨"e".toList, 0, 1⟩, ⟨"x".toList, 0, 0⟩]).rulemap,
        it.start + it.length ≤
          (StenoRule.mk ("par".toList) [] [] [] []
            [⟨"e".toList, 0, 1⟩, ⟨"x".toList, 0, 0⟩]).letters.length)) ∧
    ((StenoRuleParser.parse rawSwap 10 ("par".toList) [] 10).1 =
      .ok (.mk ("par".toList) ("P".toList) ("q".toList) [] []
        [(.mk ("x".toList) ("X".toList) ("xl".toList) [] [] [], 1, 1),
         (.mk ("ey".toList) ("E".toList) ("q".toList) [] [] [], 0, 1)]) ∧
    ¬ (RuleR.mk ("par".toList) ("P".toList) ("q".toList) [] []
        [(.mk ("x".toList) ("X".toList) ("xl".toList) [] [] [], 1, 1),
         (.mk ("ey".toList) ("E".toList) ("q".toList) [] [] [], 0, 1)]).rulemap.Pairwise
      (fun x y => x.2.1 ≤ y.2.1) ∧
    ¬ ∀ en ∈ (RuleR.mk ("par".toList) ("P".toList) ("q".toList) [] []
        [(.mk ("x".toList) ("X".toList) ("xl".toList) [] [] [], 1, 1),
         (.mk ("ey".toList) ("E".toList) ("q".toList) [] [] [], 0, 1)]).rulemap,
      en.2.1 + en.2.2 ≤
        (RuleR.mk ("par".toList) ("P".toList) ("q".toList) [] []
          [(.mk ("x".toList) ("X".toList) ("xl".toList) [] [] [], 1, 1),
           (.mk ("ey".toList) ("E".toList) ("q".toList) [] [] [], 0, 1)]).letters.length) :=
  ⟨⟨by decide, by decide⟩, rfl, by decide, by decide⟩

/-- Witness for C4 (amended) on the concrete `undo` rule set and on the key
flag `*:AB` at offset 2. -/
theorem c4_rulemap_invariants_witness :
    (StenoRule.mk ("undo".toList) ("UN/DO".toList) ("undo".toList) [] []
        [⟨"un-".toList, 0, 2⟩, ⟨"do".toList, 2, 2⟩]).rulemap.Pairwise
      (fun x y => x.start ≤ y.start) ∧
    (∀ it ∈ (StenoRule.mk ("undo".toList) ("UN/DO".toList) ("undo".toList) [] []
        [⟨"un-".toList, 0, 2⟩, ⟨"do".toList, 2, 2⟩]).rulemap,
      it.start + it.length ≤
        (StenoRule.mk ("undo".toList) ("UN/DO".toList) ("undo".toList) [] []
          [⟨"un-".toList, 0, 2⟩, ⟨"do".toList, 2, 2⟩]).letters.length) ∧
    (∀ e ∈ (addKeyRules ["*:AB".toList] 2).1,
      e.2.1 = 2 ∧ e.2.2 = 0 ∧ e.2.1 + e.2.2 ≤ 2) := by
  have h := c4_rulemap_invariants rawUndo 10 10 ("undo".toList) []
    [("undo".toList,
      ⟨"undo".toList, "UN/DO".toList, "undo".toList, [], [],
       [⟨"un-".toList, 0, 2⟩, ⟨"do".toList, 2, 2⟩]⟩),
     ("do".toList, ⟨"do".toList, "DO".toList, "do".toList, [], [], []⟩),
     ("un-".toList, ⟨"un-".toList, "UN".toList, "un".toList, [], [], []⟩)]
    ⟨"undo".toList, "UN/DO".toList, "undo".toList, [], [],
     [⟨"un-".toList, 0, 2⟩, ⟨"do".toList, 2, 2⟩]⟩ (by decide)
  exact ⟨h.1, h.2.1 (by decide) (by decide), h.2.2 ["*:AB".toList] 2⟩

theorem assocFind_append_none {α : Type} (a b : List (Str × α)) (k : Str)
    (h : assocFind a k = none) : assocFind (a ++ b) k = assocFind b k := by
  induction a with
  | nil => rfl
  | cons e t ih =>
    rcases e with ⟨k', v⟩
    rw [assocFind] at h
    by_cases hk : k' = k
    · rw [if_pos hk] at h
      simp at h
    · rw [if_neg hk] at h
      rw [List.cons_append, assocFind, if_neg hk]
      exact ih h

theorem assocFind_append_some {α : Type} (a b : List (Str × α)) (k : Str) (v : α)
    (h : assocFind a k = some v) : assocFind (a ++ b) k = some v := by
  induction a with
  | nil => simp [assocFind] at h
  | cons e t ih =>
    rcases e with ⟨k', v'⟩
    rw [assocFind] at h
    by_cases hk : k' = k
    · rw [if_pos hk] at h
      rw [List.cons_append, assocFind, if_pos hk]
      exact h
    · rw [if_neg hk] at h
      rw [List.cons_append, assocFind, if_neg hk]
      exact ih h

theorem assocFind_eq_none_of_keys {α : Type} (l : List (Str × α)) (k : Str)
    (h : ∀ e ∈ l, ¬ e.1 = k) : assocFind l k = none := by
  induction l with
  | nil => rfl
  | cons e t ih =>
    rcases e with ⟨k', v⟩
    rw [assocFind, if_neg (h (k', v) (by simp))]
    exact ih (fun e he => h e (by simp [he]))

theorem parse_leaf (raw : List (Str × RawRule)) (n : Str) (lr : RawRule) (st : Store)
    (pf' sf : Nat) (h : assocFind raw n = some lr) (hp : ¬ '(' ∈ lr.pattern) :
    RuleParser.parse raw (pf' + 1) n st sf =
      (.ok (leafRule n lr), (n, leafRule n lr) :: st) := by
  rw [RuleParser.parse, h]
  simp only []
  rw [substLoop_no_lb _ _ _ _ _ _ hp]
  rfl

theorem getAux_resolve (raw : List (Str × RawRule)) (st0 ext : Store) (n : Str)
    (pf' sfg : Nat)
    (hext : extInv raw st0 ext)
    (hres : resolvable raw st0 n)
    (hpf : 1 ≤ pf') :
    ∃ ext' rule',
      RuleParser.getAux raw (fun k' st' => RuleParser.parse raw pf' k' st' sfg) n
          (ext ++ st0) =
        (.ok (some rule'), ext' ++ st0) ∧
      extInv raw st0 ext' ∧
      ¬ '(' ∈ rule'.letters ∧ ¬ ')' ∈ rule'.letters := by
  rcases hres with ⟨rule, hst0, hl1, hl2⟩ | ⟨hst0, lr, hraw, hp1, hp2⟩
  · have hkeys : ∀ e ∈ ext, ¬ e.1 = n := by
      intro e he hq
      rcases hext e he with ⟨hnone, _⟩
      rw [hq, hst0] at hnone
      simp at hnone
    have hfind : assocFind (ext ++ st0) n = some rule := by
      rw [assocFind_append_none _ _ _ (assocFind_eq_none_of_keys ext n hkeys)]
      exact hst0
    refine ⟨ext, rule, ?_, hext, hl1, hl2⟩
    unfold RuleParser.getAux
    rw [hfind]
  · rcases hfe : assocFind ext n with _ | v
    · have hfind : assocFind (ext ++ st0) n = none := by
        rw [assocFind_append_none _ _ _ hfe]
        exact hst0
      obtain ⟨m, rfl⟩ : ∃ m, pf' = m + 1 := ⟨pf' - 1, by omega⟩
      refine ⟨(n, leafRule n lr) :: ext, leafRule n lr, ?_, ?_, ?_, ?_⟩
      · unfold RuleParser.getAux
        rw [hfind, hraw]
        simp only []
        rw [parse_leaf raw n lr (ext ++ st0) m sfg hraw hp1]
        rfl
      · intro e he
        rcases List.mem_cons.mp he with rfl | he'
        · exact ⟨hst0, lr, hraw, hp1, hp2, rfl⟩
        · exact hext e he'
      · simpa [leafRule] using hp1
      · simpa [leafRule] using hp2
    · have hmem := assocFind_mem ext n v hfe
      rcases hext (n, v) hmem with ⟨hnone, lr', hraw', hp1', hp2', hv⟩
      simp only [] at hnone hraw' hv
      have hfind : assocFind (ext ++ st0) n = some v :=
        assocFind_append_some _ _ _ _ hfe
      refine ⟨ext, v, ?_, hext, ?_, ?_⟩
      · unfold RuleParser.getAux
        rw [hfind]
      · rw [hv]
        simpa [leafRule] using hp1'
      · rw [hv]
        simpa [leafRule] using hp2'

theorem substLoop_unknown_multi (raw : List (Str × RawRule)) (st0 : Store)
    (p0 : Str) (pf' sfg : Nat) (hpf : 1 ≤ pf') :
    ∀ (pre : List (Str × Str)) (sf : Nat) (c : Str) (ext : Store)
      (a r b : Str) (rmap : List RuleMapItem),
      extInv raw st0 ext →
      (∀ q ∈ pre, (¬ '(' ∈ q.1 ∧ ¬ ')' ∈ q.1) ∧ (¬ ')' ∈ q.2 ∧ ¬ '|' ∈ q.2) ∧
        resolvable raw st0 q.2) →
      ¬ '(' ∈ c → ¬ ')' ∈ c →
      ¬ '(' ∈ a → ¬ ')' ∈ a →
      ¬ ')' ∈ r → ¬ '|' ∈ r →
      assocFind st0 r = none → assocFind raw r = none →
      pre.length + 1 ≤ sf →
      ∃ ext',
        RuleParser.substLoop
            (RuleParser.getAux raw (fun k' st' => RuleParser.parse raw pf' k' st' sfg))
            p0 sf
            (c ++ ((pre.map (fun q => q.1 ++ '(' :: (q.2 ++ [')']))).flatten ++
              (a ++ '(' :: (r ++ ')' :: b))))
            rmap (ext ++ st0) =
          (.error (.keyError ("Illegal rule reference ".toList ++ r ++
            " in pattern ".toList ++ p0)), ext' ++ st0) ∧
        extInv raw st0 ext' := by
  intro pre
  induction pre with
  | nil =>
    intro sf c ext a r b rmap hext hpre hc1 hc2 ha1 ha2 hr2 hr3 hstr hrawr hsf
    obtain ⟨m, rfl⟩ : ∃ m, sf = m + 1 := ⟨sf - 1, by omega⟩
    have hshape : c ++ ((([] : List (Str × Str)).map
          (fun q => q.1 ++ '(' :: (q.2 ++ [')']))).flatten ++
          (a ++ '(' :: (r ++ ')' :: b))) =
        (c ++ a) ++ '(' :: (r ++ ')' :: b) := by simp
    rw [hshape]
    rw [substLoop_step_ref _ _ (c ++ a) r b m rmap (ext ++ st0)
      (by simp [hc1, ha1]) (by simp [hc2, ha2]) hr2 hr3]
    have hkeys : ∀ e ∈ ext, ¬ e.1 = r := by
      intro e he hq
      rcases hext e he with ⟨_, lr, hlr, _⟩
      rw [hq, hrawr] at hlr
      simp at hlr
    have hg : RuleParser.getAux raw
        (fun k' st' => RuleParser.parse raw pf' k' st' sfg) r (ext ++ st0) =
        (.ok none, ext ++ st0) := by
      apply getAux_unknown
      · rw [assocFind_append_none _ _ _ (assocFind_eq_none_of_keys ext r hkeys)]
        exact hstr
      · exact hrawr
    rw [hg]
    exact ⟨ext, rfl, hext⟩
  | cons q pre' ih =>
    intro sf c ext a r b rmap hext hpre hc1 hc2 ha1 ha2 hr2 hr3 hstr hrawr hsf
    rcases q with ⟨seg, n⟩
    obtain ⟨m, rfl⟩ : ∃ m, sf = m + 1 := ⟨sf - 1, by simp at hsf; omega⟩
    have hq := hpre (seg, n) (by simp)
    have hshape : c ++ ((((seg, n) :: pre').map
          (fun q => q.1 ++ '(' :: (q.2 ++ [')']))).flatten ++
          (a ++ '(' :: (r ++ ')' :: b))) =
        (c ++ seg) ++ '(' :: (n ++ ')' ::
          ((pre'.map (fun q => q.1 ++ '(' :: (q.2 ++ [')']))).flatten ++
            (a ++ '(' :: (r ++ ')' :: b)))) := by
      simp
    rw [hshape]
    rw [substLoop_step_ref _ _ (c ++ seg) n _ m rmap (ext ++ st0)
      (by simp [hc1, hq.1.1]) (by simp [hc2, hq.1.2]) hq.2.1.1 hq.2.1.2]
    rcases getAux_resolve raw st0 ext n pf' sfg hext hq.2.2 hpf with
      ⟨ext1, rule1, hg, hext1, hb1, hb2⟩
    rw [hg]
    simp only []
    exact ih m ((c ++ seg) ++ rule1.letters) ext1 a r b
      (rmap ++ [⟨n, (c ++ seg).length, rule1.letters.length⟩]) hext1
      (fun q hq' => hpre q (List.mem_cons_of_mem _ hq'))
      (by simp [hc1, hq.1.1, hb1]) (by simp [hc2, hq.1.2, hb2])
      ha1 ha2 hr2 hr3 hstr hrawr (by simp at hsf; omega)

/-- Claim C3 (amended): resolving a rule `k` whose pattern contains a plain
bracketed reference to a name `r` absent from both the raw definitions and
the resolved store, where every reference earlier in the pattern resolves
(it is already in the store with bracket-free letters, or it is a raw rule
whose pattern needs no further substitution), fails with an
unknown-reference `KeyError` whose message names `r` and the pattern text in
which the reference occurs — the rule name `k` is not part of the error.
The store at the failure is the initial store extended by a (possibly
empty) list of finished child rules resolved on the way; it is not rolled
back. -/
theorem c3_unknown_reference (raw : List (Str × RawRule)) (k : Str) (rr : RawRule)
    (pre : List (Str × Str)) (a r b : Str) (st : Store) (pf sf : Nat)
    (hk : assocFind raw k = some rr)
    (hpat : rr.pattern =
      (pre.map (fun q => q.1 ++ '(' :: (q.2 ++ [')']))).flatten ++
        (a ++ '(' :: (r ++ ')' :: b)))
    (hpre : ∀ q ∈ pre, (¬ '(' ∈ q.1 ∧ ¬ ')' ∈ q.1) ∧ (¬ ')' ∈ q.2 ∧ ¬ '|' ∈ q.2) ∧
      resolvable raw st q.2)
    (ha1 : ¬ '(' ∈ a) (ha2 : ¬ ')' ∈ a)
    (hr2 : ¬ ')' ∈ r) (hr3 : ¬ '|' ∈ r)
    (hst : assocFind st r = none) (hraw : assocFind raw r = none)
    (hpf : 2 ≤ pf) (hsf : pre.length + 1 ≤ sf) :
    (∃ ext, extInv raw st ext ∧
      RuleParser.parse raw pf k st sf =
        (.error (.keyError ("Illegal rule reference ".toList ++ r ++
          " in pattern ".toList ++ rr.pattern)), ext ++ st)) ∧
    containsSub ("Illegal rule reference ".toList ++ r ++
      " in pattern ".toList ++ rr.pattern) r = true ∧
    containsSub ("Illegal rule reference ".toList ++ r ++
      " in pattern ".toList ++ rr.pattern) rr.pattern = true := by
  refine ⟨?_, ?_, ?_⟩
  · obtain ⟨n, rfl⟩ : ∃ n, pf = n + 1 := ⟨pf - 1, by omega⟩
    have hn : 1 ≤ n := by omega
    rcases substLoop_unknown_multi raw st rr.pattern n sf hn pre sf [] [] a r b []
        (by intro e he; simp at he) hpre (by simp) (by simp) ha1 ha2 hr2 hr3
        hst hraw hsf with ⟨ext, heq, hext⟩
    simp only [List.nil_append] at heq
    refine ⟨ext, hext, ?_⟩
    rw [RuleParser.parse, hk]
    simp only []
    rw [← hpat] at heq
    rw [heq]
    simp [wrapErr]
  · apply (containsSub_eq_true_iff _ _).mpr
    exact ⟨"Illegal rule reference ".toList, " in pattern ".toList ++ rr.pattern, by simp⟩
  · apply (containsSub_eq_true_iff _ _).mpr
    refine ⟨"Illegal rule reference ".toList ++ r ++ " in pattern ".toList, [], by simp⟩

/-- Witness for C3 (amended) at the two-rule set `rawMulti`: the pattern
`(x)(Z)` resolves the raw leaf `x` before failing on the unknown `Z`. -/
theorem c3_unknown_reference_witness :
    (∃ ext, extInv rawMulti [] ext ∧
      RuleParser.parse rawMulti 5 ("foo".toList) [] 5 =
        (.error (.keyError ("Illegal rule reference ".toList ++ "Z".toList ++
          " in pattern ".toList ++
          (⟨"K".toList, "(x)(Z)".toList, [], []⟩ : RawRule).pattern)), ext ++ [])) ∧
    containsSub ("Illegal rule reference ".toList ++ "Z".toList ++
      " in pattern ".toList ++
      (⟨"K".toList, "(x)(Z)".toList, [], []⟩ : RawRule).pattern) ("Z".toList) = true ∧
    containsSub ("Illegal rule reference ".toList ++ "Z".toList ++
      " in pattern ".toList ++
      (⟨"K".toList, "(x)(Z)".toList, [], []⟩ : RawRule).pattern)
      (⟨"K".toList, "(x)(Z)".toList, [], []⟩ : RawRule).pattern = true :=
  c3_unknown_reference rawMulti ("foo".toList) ⟨"K".toList, "(x)(Z)".toList, [], []⟩
    [([], "x".toList)] [] ("Z".toList) [] [] 5 5 rfl (by decide)
    (by
      intro q hq
      simp only [List.mem_singleton] at hq
      subst hq
      refine ⟨⟨by decide, by decide⟩, ⟨by decide, by decide⟩, ?_⟩
      unfold resolvable
      exact Or.inr ⟨rfl, ⟨"X".toList, "xl".toList, [], []⟩, by decide, by decide,
        by decide⟩)
    (by decide) (by decide) (by decide) (by decide) rfl (by decide)
    (by decide) (by decide)
